import Mathlib

/-
Verification of the FastPay-style recovery protocol prototype
(TypeScript sources: src/client.ts embedded ValidatorCore,
src/validator-core.ts, src/classic-validator-core.ts, src/common.ts).

Shallow embedding notes:
  * Addresses are opaque natural numbers, already case-normalised
    (the sources lowercase every address before use).
  * Transactions are content-addressed: the deterministic hash of a
    serialized transaction is modelled by the transaction value itself,
    so hash equality is transaction equality.
  * A vote's serializedTx field is `Option Tx`: `none` is the bot (⊥)
    payload, exactly as `null` in the sources.
  * Signature checking is abstracted by a boolean `sigOk` field: a vote
    verifies iff its signature is ok and its validator is in the set,
    mirroring verifyVote in common.ts.
  * The mutually recursive onVote / processCertificate pair of the
    sources is embedded with an explicit fuel parameter; running out of
    fuel stops processing and returns the state reached so far, so all
    state-invariant theorems quantify over arbitrary fuel.
-/

namespace FastPay

/-- Address of the recovery precompile contract (RECOVERY_CONTRACT in
common.ts), modelled as the opaque address 100. -/
def RECOVERY_CONTRACT : Nat := 100

/-- Parsed transaction: sender (recovered from the signature), recipient,
value, nonce, whether a valid signature is attached (tx.from and
tx.signature both present), and the optional inner transaction parsed
from the data field (used by recovery transactions). -/
inductive Tx where
  | mk (sender recipient value nonce : Nat) (hasSig : Bool) (dataTx : Option Tx)

def Tx.sender : Tx → Nat
  | .mk s _ _ _ _ _ => s

def Tx.recipient : Tx → Nat
  | .mk _ r _ _ _ _ => r

def Tx.value : Tx → Nat
  | .mk _ _ v _ _ _ => v

def Tx.nonce : Tx → Nat
  | .mk _ _ _ n _ _ => n

def Tx.hasSig : Tx → Bool
  | .mk _ _ _ _ h _ => h

def Tx.dataTx : Tx → Option Tx
  | .mk _ _ _ _ _ d => d

/-- Boolean structural equality of transactions (content hashes agree iff
the serialized transactions agree, since serialization is
deterministic). -/
def Tx.beq : Tx → Tx → Bool
  | .mk s r v n h d, .mk s' r' v' n' h' d' =>
    s == s' && r == r' && v == v' && n == n' && h == h' &&
      (match d, d' with
       | none, none => true
       | some x, some y => Tx.beq x y
       | _, _ => false)

theorem Tx.beq_iff : ∀ a b : Tx, Tx.beq a b = true ↔ a = b
  | .mk s r v n h none, .mk s' r' v' n' h' none => by
      simp [Tx.beq, and_assoc]
  | .mk s r v n h none, .mk s' r' v' n' h' (some y) => by
      simp [Tx.beq]
  | .mk s r v n h (some x), .mk s' r' v' n' h' none => by
      simp [Tx.beq]
  | .mk s r v n h (some x), .mk s' r' v' n' h' (some y) => by
      have ih := Tx.beq_iff x y
      simp [Tx.beq, ih, and_assoc]

instance : DecidableEq Tx := fun a b =>
  decidable_of_iff (Tx.beq a b = true) (Tx.beq_iff a b)

/-- A vote as broadcast between validators (common.ts Vote): signing
validator, account, nonce, payload (`none` = bot) and a flag abstracting
whether the signature recovers to the validator address. -/
structure Vote where
  validator : Nat
  account : Nat
  nonce : Nat
  tx : Option Tx
  sigOk : Bool
deriving DecidableEq

/-- Hash of a vote's payload (voteTxHash in common.ts): the transaction
itself, or `none` for a bot vote. -/
def voteTxHash (v : Vote) : Option Tx := v.tx

/-- Count of unique validators voting for a specific payload hash
(countQuorum in common.ts). -/
def countQuorum (votes : List Vote) (txHash : Option Tx) : Nat :=
  (((votes.filter (fun v => decide (voteTxHash v = txHash)))).map
      (fun v => v.validator)).dedup.length

/-- Signature and membership check for an incoming vote (verifyVote in
common.ts): the validator must be in the set and the signature must
recover to the validator address. -/
def verifyVote (vote : Vote) (validatorSet : List Nat) : Bool :=
  validatorSet.contains vote.validator && vote.sigOk

/-- Per-account state kept by a validator (AccountState in common.ts). -/
structure AccountState where
  balance : Int
  nonce : Nat
  pending : Bool
  finalised : Int
deriving DecidableEq

/-- Default account created on first reference (getAccount in the cores). -/
def defaultAccount : AccountState :=
  { balance := 0, nonce := 0, pending := false, finalised := -1 }

/-- Complete state of one validator core: configuration (own address,
validator set, quorum thresholds) plus the account store and the
per-account per-nonce vote store. -/
structure VState where
  self : Nat
  validatorSet : List Nat
  finalityQuorum : Nat
  notarisationQuorum : Nat
  accounts : Nat → AccountState
  voteStore : Nat → Nat → List Vote

/-- Account lookup with lazy default creation (getAccount). -/
def getAccount (s : VState) (a : Nat) : AccountState := s.accounts a

/-- Replace one account's state. -/
def setAccount (s : VState) (a : Nat) (st : AccountState) : VState :=
  { s with accounts := fun x => if x = a then st else s.accounts x }

/-- Replace the vote list stored at one (account, nonce) slot. -/
def setVotes (s : VState) (a n : Nat) (vs : List Vote) : VState :=
  { s with voteStore := fun x m => if x = a ∧ m = n then vs else s.voteStore x m }

/-- Payload keys in order of first appearance, mirroring the object-key
insertion order of votesByTx in getMaxQuorumCert. -/
def quorumKeys (votes : List Vote) : List (Option Tx) :=
  votes.foldl
    (fun acc v => if voteTxHash v ∈ acc then acc else acc ++ [voteTxHash v]) []

/-- Maximum per-payload distinct-validator count and the corresponding
payload (getMaxQuorumCert in the cores).  Returns (0, none) when the
maximum falls below minQuorum.  The certificate (vote list) component is
dropped from the model because the state machine never consumes it. -/
def getMaxQuorumCert (votes : List Vote) (minQuorum : Nat := 1) : Nat × Option Tx :=
  let best := (quorumKeys votes).foldl
    (fun (b : Nat × Option Tx) k =>
      if countQuorum votes k > b.1 then (countQuorum votes k, k) else b) (0, none)
  if best.1 ≥ minQuorum then best else (0, none)

/-- Deduplication rule of onVote: a transaction-payload vote is dropped
when any vote from the same validator is already stored; a bot vote is
dropped only when a bot vote from the same validator is already stored. -/
def voteDropped (existing : List Vote) (vote : Vote) : Bool :=
  match vote.tx with
  | some _ => existing.any (fun v => decide (v.validator = vote.validator))
  | none => existing.any (fun v => decide (v.validator = vote.validator ∧ v.tx = none))

/-- Chain-start resolution (getTxChainStart): repeatedly unwrap a recovery
transaction's data payload until a non-recovery transaction is reached.
The source recursion carries no depth cap; the embedding terminates
structurally because parsing strictly shrinks the serialized data. -/
def getTxChainStart : Tx → Tx
  | .mk s r v n h (some tip) =>
    if r = RECOVERY_CONTRACT then getTxChainStart tip
    else .mk s r v n h (some tip)
  | t => t

/-- Transfer execution at finality (executeTransfer): debit the sender,
credit the recipient; no balance check is performed here. -/
def executeTransfer (s : VState) (tx : Tx) : VState :=
  let senderAcc := getAccount s tx.sender
  let s1 := setAccount s tx.sender { senderAcc with balance := senderAcc.balance - (tx.value : Int) }
  let recipientAcc := getAccount s1 tx.recipient
  setAccount s1 tx.recipient { recipientAcc with balance := recipientAcc.balance + (tx.value : Int) }

/-- Error kinds raised by the validator (section 7 of the spec; thrown as
exceptions in the sources). -/
inductive Err where
  | badSignature
  | accountPending
  | nonceMismatch
  | notFinalisedPrev
  | insufficientBalance
  | missingTip
  | tipSenderMismatch
  | tipNotNotarised
  | intermediateNotBottom
  | invalidVote
deriving DecidableEq

/-- Payment validation (validatePayment): the previous nonce must be the
latest finalised one and the balance must cover the value. -/
def validatePayment (s : VState) (tx : Tx) : Option Err :=
  let account := getAccount s tx.sender
  if account.finalised ≠ (tx.nonce : Int) - 1 then some .notFinalisedPrev
  else if account.balance < (tx.value : Int) then some .insufficientBalance
  else none

/-- Recovery validation (validateRecovery): the data payload must decode
to a tip transaction signed by the same sender, the tip must hold a
notarisation quorum at its nonce, and every intermediate nonce strictly
between the tip nonce and the recovery nonce must hold a bot
notarisation quorum. -/
def validateRecovery (s : VState) (tx : Tx) : Option Err :=
  match tx.dataTx with
  | none => some .missingTip
  | some tipTx =>
    if ¬ (tipTx.hasSig = true ∧ tipTx.sender = tx.sender) then some .tipSenderMismatch
    else if countQuorum (s.voteStore tx.sender tipTx.nonce) (some tipTx) < s.notarisationQuorum then
      some .tipNotNotarised
    else if (List.range' (tipTx.nonce + 1) (tx.nonce - (tipTx.nonce + 1))).any
        (fun k => decide (countQuorum (s.voteStore tx.sender k) none < s.notarisationQuorum)) then
      some .intermediateNotBottom
    else none

/-- Result of one vote-processing call: the new state, the votes this
validator broadcast during the call, and the error (exception) if one
propagated. -/
structure StepResult where
  state : VState
  emitted : List Vote
  err : Option Err

/-- Outcome of the current-nonce branch of processCertificate. -/
inductive Phase1 where
  | err (s : VState) (e : Err)
  | castBot (s : VState) (bot : Vote)
  | botDropped (s : VState) (bot : Vote)
  | advanced (s : VState)
  | idle

/-- Current-nonce branch of processCertificate: either cast a bot vote
(quorum below notarisation, a full store of votes, no own bot yet) or
advance the nonce (notarisation reached while pending).  The bot vote is
inserted through the onVote path (verification, deduplication, append);
its recursive certificate processing is performed by the caller. -/
def phase1 (s : VState) (account nonce : Nat) : Phase1 :=
  let acc := getAccount s account
  let votes := s.voteStore account nonce
  let q := (getMaxQuorumCert votes).1
  if nonce = acc.nonce then
    if q < s.notarisationQuorum then
      if votes.length ≥ s.finalityQuorum ∧
          votes.any (fun v => decide (v.validator = s.self ∧ v.tx = none)) = false then
        let s1 := setAccount s account { acc with pending := true }
        let bot : Vote := ⟨s.self, account, nonce, none, true⟩
        if verifyVote bot s1.validatorSet = false then .err s1 .invalidVote
        else if voteDropped (s1.voteStore account nonce) bot then .botDropped s1 bot
        else .castBot (setVotes s1 account nonce (s1.voteStore account nonce ++ [bot])) bot
      else .idle
    else
      if acc.pending = true then
        .advanced (setAccount s account { acc with nonce := nonce + 1, pending := false })
      else .idle
  else .idle

/-- Finality branch of processCertificate: with a finality quorum for a
non-bot payload at a nonce above the finalised mark, resolve the chain
start; execute the transfer when its nonce is finalised + 1, mark the
nonce finalised, and advance the account nonce when it has not moved
past this nonce yet.  Returns the new state and whether the account
nonce was incremented. -/
def finalityPhase (s : VState) (account nonce : Nat) (q : Nat) (txm : Option Tx) :
    VState × Bool :=
  let acc := getAccount s account
  match txm with
  | none => (s, false)
  | some t =>
    if q ≥ s.finalityQuorum ∧ (nonce : Int) > acc.finalised then
      let originalTx := getTxChainStart t
      if (originalTx.nonce : Int) = acc.finalised ∨
          (originalTx.nonce : Int) = acc.finalised + 1 then
        let s1 := if (originalTx.nonce : Int) = acc.finalised + 1 then
            executeTransfer s originalTx else s
        let s2 := setAccount s1 account { getAccount s1 account with finalised := (nonce : Int) }
        if nonce ≥ (getAccount s2 account).nonce then
          (setAccount s2 account
            { getAccount s2 account with nonce := nonce + 1, pending := false }, true)
        else (s2, false)
      else (s, false)
    else (s, false)

/-- Certificate processor (processCertificate in the client.ts core).
The fuel argument bounds the recursion depth of the source's mutual
recursion (self bot vote re-insertion and re-entry at the advanced
nonce); running out of fuel stops processing. -/
def processCertificate : Nat → VState → Nat → Nat → StepResult
  | 0, s, _, _ => ⟨s, [], none⟩
  | fuel + 1, s, account, nonce =>
    let votes := s.voteStore account nonce
    let q := (getMaxQuorumCert votes).1
    let txm := (getMaxQuorumCert votes).2
    match phase1 s account nonce with
    | .err s1 e => ⟨s1, [], some e⟩
    | .castBot s2 bot =>
      let r := processCertificate fuel s2 account nonce
      match r.err with
      | some e => ⟨r.state, r.emitted, some e⟩
      | none =>
        let fr := finalityPhase r.state account nonce q txm
        if fr.2 then
          let r2 := processCertificate fuel fr.1 account (getAccount fr.1 account).nonce
          ⟨r2.state, (r.emitted ++ [bot]) ++ r2.emitted, r2.err⟩
        else ⟨fr.1, r.emitted ++ [bot], none⟩
    | .botDropped s1 bot =>
      let fr := finalityPhase s1 account nonce q txm
      if fr.2 then
        let r2 := processCertificate fuel fr.1 account (getAccount fr.1 account).nonce
        ⟨r2.state, [bot] ++ r2.emitted, r2.err⟩
      else ⟨fr.1, [bot], none⟩
    | .advanced s1 =>
      let fr := finalityPhase s1 account nonce q txm
      let r2 := processCertificate fuel fr.1 account (getAccount fr.1 account).nonce
      ⟨r2.state, r2.emitted, r2.err⟩
    | .idle =>
      let fr := finalityPhase s account nonce q txm
      if fr.2 then
        let r2 := processCertificate fuel fr.1 account (getAccount fr.1 account).nonce
        ⟨r2.state, r2.emitted, r2.err⟩
      else ⟨fr.1, [], none⟩

/-- Peer-vote ingress (onVote): verify, deduplicate, append, process. -/
def onVote (fuel : Nat) (s : VState) (vote : Vote) : StepResult :=
  if verifyVote vote s.validatorSet = false then ⟨s, [], some .invalidVote⟩
  else
    let existing := s.voteStore vote.account vote.nonce
    if voteDropped existing vote then ⟨s, [], none⟩
    else
      let s1 := setVotes s vote.account vote.nonce (existing ++ [vote])
      processCertificate fuel s1 vote.account vote.nonce

/-- Result of onTransaction: the new state, the returned self vote on
success, broadcast votes and the error if one was raised. -/
structure TxResult where
  state : VState
  vote : Option Vote
  emitted : List Vote
  err : Option Err

/-- Signed-transaction ingress (onTransaction): signature, pending and
nonce checks, then payment or recovery validation; on success mark the
account pending, store the self vote directly (no deduplication), run
the certificate processor and broadcast the vote. -/
def onTransaction (fuel : Nat) (s : VState) (tx : Tx) : TxResult :=
  if tx.hasSig = false then ⟨s, none, [], some .badSignature⟩
  else
    let sender := tx.sender
    let account := getAccount s sender
    if account.pending = true then ⟨s, none, [], some .accountPending⟩
    else if tx.nonce ≠ account.nonce then ⟨s, none, [], some .nonceMismatch⟩
    else
      let vErr := if tx.recipient = RECOVERY_CONTRACT then validateRecovery s tx
        else validatePayment s tx
      match vErr with
      | some e => ⟨s, none, [], some e⟩
      | none =>
        let s1 := setAccount s sender { account with pending := true }
        let vote : Vote := ⟨s.self, sender, tx.nonce, some tx, true⟩
        let s2 := setVotes s1 sender tx.nonce (s1.voteStore sender tx.nonce ++ [vote])
        let r := processCertificate fuel s2 sender tx.nonce
        match r.err with
        | some e => ⟨r.state, none, r.emitted, some e⟩
        | none => ⟨r.state, some vote, r.emitted ++ [vote], none⟩

/-- One ingress operation applied to a validator, with its processing
fuel. -/
inductive Op where
  | vote (fuel : Nat) (v : Vote)
  | txn (fuel : Nat) (tx : Tx)

/-- State reached after one ingress operation. -/
def applyOp (s : VState) : Op → VState
  | .vote fuel v => (onVote fuel s v).state
  | .txn fuel tx => (onTransaction fuel s tx).state

/-- State reached after a sequence of ingress operations. -/
def applyOps (s : VState) (ops : List Op) : VState := ops.foldl applyOp s

/-- Initial validator state: genesis accounts carry their balance with
nonce 0, pending false, finalised -1; every other account is default;
the vote store is empty (the constructor in the sources). -/
def initState (self : Nat) (validatorSet : List Nat) (fq nq : Nat)
    (genesis : List (Nat × Int)) : VState :=
  { self := self
    validatorSet := validatorSet
    finalityQuorum := fq
    notarisationQuorum := nq
    accounts := fun a =>
      match genesis.find? (fun g => decide (g.1 = a)) with
      | some g => { balance := g.2, nonce := 0, pending := false, finalised := -1 }
      | none => defaultAccount
    voteStore := fun _ _ => [] }

namespace Classic

/-- Certificate processor of the classic 3f+1 core
(classic-validator-core.ts processCertificate): only the finality quorum
matters; at a finality quorum for a non-bot payload at the current
nonce, execute the transfer, mark the nonce finalised, advance and
unlock.  No bot voting, no re-entry.  The notarisationQuorum field of
VState is unused by this core. -/
def processCertificate (s : VState) (account nonce : Nat) : VState :=
  let acc := getAccount s account
  let votes := s.voteStore account nonce
  let q := (getMaxQuorumCert votes).1
  match (getMaxQuorumCert votes).2 with
  | none => s
  | some t =>
    if nonce = acc.nonce ∧ q ≥ s.finalityQuorum then
      let s1 := executeTransfer s t
      setAccount s1 account
        { getAccount s1 account with nonce := nonce + 1, pending := false, finalised := (nonce : Int) }
    else s

/-- Peer-vote ingress of the classic core (onVote): verify, deduplicate
(one vote per validator per nonce, regardless of payload), append,
process. -/
def onVote (s : VState) (vote : Vote) : VState × Option Err :=
  if verifyVote vote s.validatorSet = false then (s, some .invalidVote)
  else
    let existing := s.voteStore vote.account vote.nonce
    if existing.any (fun v => decide (v.validator = vote.validator)) then (s, none)
    else
      let s1 := setVotes s vote.account vote.nonce (existing ++ [vote])
      (processCertificate s1 vote.account vote.nonce, none)

/-- Signed-transaction ingress of the classic core (onTransaction):
signature, pending, nonce and balance checks; on success mark pending,
store the self vote (always carrying the transaction payload) and
process. -/
def onTransaction (s : VState) (tx : Tx) : VState × Option Vote × Option Err :=
  if tx.hasSig = false then (s, none, some .badSignature)
  else
    let account := getAccount s tx.sender
    if account.pending = true then (s, none, some .accountPending)
    else if tx.nonce ≠ account.nonce then (s, none, some .nonceMismatch)
    else if account.balance < (tx.value : Int) then (s, none, some .insufficientBalance)
    else
      let s1 := setAccount s tx.sender { account with pending := true }
      let vote : Vote := ⟨s.self, tx.sender, tx.nonce, some tx, true⟩
      let s2 := setVotes s1 tx.sender tx.nonce (s1.voteStore tx.sender tx.nonce ++ [vote])
      (processCertificate s2 tx.sender tx.nonce, some vote, none)

/-- One ingress operation for the classic core. -/
inductive Op where
  | vote (v : Vote)
  | txn (tx : Tx)

/-- State reached after one classic ingress operation. -/
def applyOp (s : VState) : Op → VState
  | .vote v => (onVote s v).1
  | .txn tx => (onTransaction s tx).1

/-- State reached after a sequence of classic ingress operations. -/
def applyOps (s : VState) (ops : List Op) : VState := ops.foldl applyOp s

end Classic

/-- Total number of distinct validators with a stored vote at a slot
(used to state the spec's R1 condition; the code instead uses the raw
length of the stored vote list). -/
def totalDistinctValidators (votes : List Vote) : Nat :=
  (votes.map (fun v => v.validator)).dedup.length

/-- Recovery transaction nested to the given depth around a base
transaction: each layer is a signed zero-value transaction to the
recovery contract whose data field carries the next layer. -/
def nestRecovery : Nat → Tx → Tx
  | 0, t => t
  | d + 1, t => .mk (t.sender) RECOVERY_CONTRACT 0 (t.nonce + d + 1) true (some (nestRecovery d t))

/-- Scenario state for the C1 counterexample: n = 6, f = 1 configuration
(finality quorum 5, notarisation quorum 3), this validator is 6; account
10 sits at nonce 5 with a pending vote and finalised mark 1; the store
holds, at nonce 3, five distinct-validator votes for a recovery
transaction whose chain start is a payment of 7 from 10 to 11 at
nonce 2. -/
def cexC1State : VState :=
  { self := 6, validatorSet := [1, 2, 3, 4, 5, 6], finalityQuorum := 5, notarisationQuorum := 3,
    accounts := fun x => if x = 10 then ⟨50, 5, true, 1⟩ else defaultAccount,
    voteStore := fun x m =>
      if x = 10 ∧ m = 3 then
        [1, 2, 3, 4, 5].map (fun i =>
          ⟨i, 10, 3, some (Tx.mk 10 RECOVERY_CONTRACT 0 3 true
            (some (Tx.mk 10 11 7 2 true none))), true⟩)
      else [] }

/-- Scenario state for the C1 witness: account 10 holds 1000 with a
pending vote at nonce 0, and the store holds five distinct-validator
votes at nonce 0 for a payment of 100 from 10 to 11. -/
def witC1State : VState :=
  { self := 6, validatorSet := [1, 2, 3, 4, 5, 6], finalityQuorum := 5, notarisationQuorum := 3,
    accounts := fun x => if x = 10 then ⟨1000, 0, true, -1⟩ else defaultAccount,
    voteStore := fun x m =>
      if x = 10 ∧ m = 0 then
        [1, 2, 3, 4, 5].map (fun i => ⟨i, 10, 0, some (Tx.mk 10 11 100 0 true none), true⟩)
      else [] }

/-- Replay guard for a transaction accepted at nonce m: the account has
either an in-flight vote or has moved past m.  This is the invariant
that makes a replayed transaction fail with Pending or NonceMismatch. -/
def ReplayInv (m : Nat) (st : AccountState) : Prop :=
  m ≤ st.nonce ∧ (st.pending = true ∨ m < st.nonce)

/-- Evolution relation between validator states along processing: the
configuration is unchanged, account nonces and finalised marks never
decrease, the separation invariant finalised < nonce is preserved, and
the replay guard of every accepted transaction is preserved. -/
def AccountsEvolve (s s' : VState) : Prop :=
  s'.self = s.self ∧ s'.validatorSet = s.validatorSet ∧
  s'.finalityQuorum = s.finalityQuorum ∧ s'.notarisationQuorum = s.notarisationQuorum ∧
  (∀ x, (getAccount s x).nonce ≤ (getAccount s' x).nonce) ∧
  (∀ x, (getAccount s x).finalised ≤ (getAccount s' x).finalised) ∧
  ((∀ x, (getAccount s x).finalised < ((getAccount s x).nonce : Int)) →
    (∀ x, (getAccount s' x).finalised < ((getAccount s' x).nonce : Int))) ∧
  (∀ m x, ReplayInv m (getAccount s x) → ReplayInv m (getAccount s' x))

/-- Store growth along certificate processing for account a at nonces at
least n: every slot of the vote store only receives appended votes, and
every appended vote is an own bot vote of account a at nonce at least n. -/
def StoreGrow (s s' : VState) (a n : Nat) : Prop :=
  ∀ x m, ∃ l, s'.voteStore x m = s.voteStore x m ++ l ∧
    ∀ v ∈ l, v.validator = s.self ∧ v.tx = none ∧ v.account = a ∧ n ≤ v.nonce

/-- Whether this validator's own bot vote is stored at a slot. -/
def hasSelfBotAt (s : VState) (a n : Nat) : Bool :=
  (s.voteStore a n).any (fun v => decide (v.validator = s.self ∧ v.tx = none))

/-- Exact condition under which the certificate processor signs a bot
vote at a slot, read off the source guards: the slot is the account's
current nonce, the maximum per-payload quorum is below the notarisation
quorum, the number of stored votes reaches the finality quorum, and this
validator has not yet stored its own bot vote there. -/
def botCastCondition (s : VState) (a n : Nat) : Prop :=
  n = (getAccount s a).nonce ∧
  (getMaxQuorumCert (s.voteStore a n)).1 < s.notarisationQuorum ∧
  s.finalityQuorum ≤ (s.voteStore a n).length ∧
  hasSelfBotAt s a n = false

/-- State after a sequence of ingress operations together with a flag
recording whether every operation was accepted (returned without an
error). -/
def applyOpsChecked (s : VState) (ops : List Op) : VState × Bool :=
  ops.foldl
    (fun (p : VState × Bool) op =>
      match op with
      | .vote fuel v => ((onVote fuel p.1 v).state, p.2 && (onVote fuel p.1 v).err.isNone)
      | .txn fuel tx =>
        ((onTransaction fuel p.1 tx).state, p.2 && (onTransaction fuel p.1 tx).err.isNone))
    (s, true)

/-- Number of stored transaction-payload votes by one validator in a
vote list. -/
def txVoteCount (w : Nat) (l : List Vote) : Nat :=
  (l.filter (fun v => decide (v.validator = w ∧ v.tx ≠ none))).length

/-- Number of stored bot votes by one validator in a vote list. -/
def botVoteCount (w : Nat) (l : List Vote) : Nat :=
  (l.filter (fun v => decide (v.validator = w ∧ v.tx = none))).length

/-- Single-vote store invariant (I3) together with the companion guard
that makes onTransaction's direct (non-deduplicated) self-vote insertion
safe: every (validator, slot) pair holds at most one transaction-payload
vote and at most one bot vote, and any slot holding a self
transaction-payload vote satisfies the replay guard of its nonce. -/
def StoreInv (s : VState) : Prop :=
  (∀ w x m, txVoteCount w (s.voteStore x m) ≤ 1 ∧ botVoteCount w (s.voteStore x m) ≤ 1) ∧
  (∀ x m, 1 ≤ txVoteCount s.self (s.voteStore x m) → ReplayInv m (getAccount s x))

/-- Scenario state for the C10 witness: classic 3f+1 core with n = 4
validators and finality quorum 3; account 10 is pending at nonce 0 with
a split vote set (two distinct payments with one vote each). -/
def witC10State : VState :=
  { self := 4, validatorSet := [1, 2, 3, 4], finalityQuorum := 3, notarisationQuorum := 1,
    accounts := fun x => if x = 10 then ⟨100, 0, true, -1⟩ else defaultAccount,
    voteStore := fun x m =>
      if x = 10 ∧ m = 0 then
        [⟨1, 10, 0, some (Tx.mk 10 11 5 0 true none), true⟩,
         ⟨2, 10, 0, some (Tx.mk 10 12 5 0 true none), true⟩]
      else [] }

/-- Ingress for the C10 witness: one more vote for the second payment,
which still leaves the maximum quorum at 2, below the finality
quorum. -/
def witC10Ops : List Classic.Op :=
  [Classic.Op.vote ⟨3, 10, 0, some (Tx.mk 10 12 5 0 true none), true⟩]

/-- Ingress sequence for the C2 counterexample: on the n = 6, f = 1
network, validator 6 receives votes for three different payments from
account 10 at nonce 0 (validators 1, 2, 3) and then a bot vote from
validator 1.  All four are accepted and stored. -/
def cexC2Ops : List Op :=
  [Op.vote 3 ⟨1, 10, 0, some (Tx.mk 10 11 1 0 true none), true⟩,
   Op.vote 3 ⟨2, 10, 0, some (Tx.mk 10 12 2 0 true none), true⟩,
   Op.vote 3 ⟨3, 10, 0, some (Tx.mk 10 13 3 0 true none), true⟩,
   Op.vote 3 ⟨1, 10, 0, none, true⟩]

/-- State of validator 6 after the C2 counterexample ingress sequence. -/
def cexC2State : VState :=
  (applyOpsChecked (initState 6 [1, 2, 3, 4, 5, 6] 5 3 []) cexC2Ops).1

/-- Scenario state for the C3 claim: validator 6 of the n = 6, f = 1
network; account 10 is at nonce 1 with a pending vote and nothing
finalised; the slot at nonce 1 holds a notarisation quorum of bot votes
(validators 1, 2, 3) and the slot at nonce 2 already holds a finality
quorum of votes (validators 1-5) for a recovery transaction at nonce 2
wrapping the unfinalised payment of 100 from 10 to 11 at nonce 0. -/
def witC3State : VState :=
  { self := 6, validatorSet := [1, 2, 3, 4, 5, 6], finalityQuorum := 5, notarisationQuorum := 3,
    accounts := fun x => if x = 10 then ⟨1000, 1, true, -1⟩ else defaultAccount,
    voteStore := fun x m =>
      if x = 10 ∧ m = 1 then
        [⟨1, 10, 1, none, true⟩, ⟨2, 10, 1, none, true⟩, ⟨3, 10, 1, none, true⟩]
      else if x = 10 ∧ m = 2 then
        [1, 2, 3, 4, 5].map (fun i =>
          ⟨i, 10, 2, some (Tx.mk 10 RECOVERY_CONTRACT 0 2 true
            (some (Tx.mk 10 11 100 0 true none))), true⟩)
      else [] }

/-- Scenario state for the C2 witness: the slot of account 10 at nonce 0
holds five votes (three payment votes from validators 1, 2, 3 and bot
votes from validators 1 and 2), reaching the raw finality-quorum length
with maximum per-payload quorum 2 below the notarisation quorum. -/
def witC2State : VState :=
  { self := 6, validatorSet := [1, 2, 3, 4, 5, 6], finalityQuorum := 5, notarisationQuorum := 3,
    accounts := fun _ => defaultAccount,
    voteStore := fun x m =>
      if x = 10 ∧ m = 0 then
        [⟨1, 10, 0, some (Tx.mk 10 11 1 0 true none), true⟩,
         ⟨2, 10, 0, some (Tx.mk 10 12 2 0 true none), true⟩,
         ⟨3, 10, 0, some (Tx.mk 10 13 3 0 true none), true⟩,
         ⟨1, 10, 0, none, true⟩, ⟨2, 10, 0, none, true⟩]
      else [] }

/-
Lemma layer: properties of the quorum evaluator.
-/

@[simp] theorem getAccount_setAccount (s : VState) (a : Nat) (st : AccountState) (x : Nat) :
    getAccount (setAccount s a st) x = if x = a then st else getAccount s x := rfl

@[simp] theorem voteStore_setAccount (s : VState) (a : Nat) (st : AccountState) :
    (setAccount s a st).voteStore = s.voteStore := rfl

@[simp] theorem accounts_setVotes (s : VState) (a n : Nat) (vs : List Vote) :
    (setVotes s a n vs).accounts = s.accounts := rfl

@[simp] theorem getAccount_setVotes (s : VState) (a n : Nat) (vs : List Vote) (x : Nat) :
    getAccount (setVotes s a n vs) x = getAccount s x := rfl

@[simp] theorem voteStore_setVotes (s : VState) (a n : Nat) (vs : List Vote) (x m : Nat) :
    (setVotes s a n vs).voteStore x m = if x = a ∧ m = n then vs else s.voteStore x m := rfl

@[simp] theorem self_setAccount (s : VState) (a : Nat) (st : AccountState) :
    (setAccount s a st).self = s.self := rfl

@[simp] theorem self_setVotes (s : VState) (a n : Nat) (vs : List Vote) :
    (setVotes s a n vs).self = s.self := rfl

@[simp] theorem validatorSet_setAccount (s : VState) (a : Nat) (st : AccountState) :
    (setAccount s a st).validatorSet = s.validatorSet := rfl

@[simp] theorem validatorSet_setVotes (s : VState) (a n : Nat) (vs : List Vote) :
    (setVotes s a n vs).validatorSet = s.validatorSet := rfl

@[simp] theorem finalityQuorum_setAccount (s : VState) (a : Nat) (st : AccountState) :
    (setAccount s a st).finalityQuorum = s.finalityQuorum := rfl

@[simp] theorem finalityQuorum_setVotes (s : VState) (a n : Nat) (vs : List Vote) :
    (setVotes s a n vs).finalityQuorum = s.finalityQuorum := rfl

@[simp] theorem notarisationQuorum_setAccount (s : VState) (a : Nat) (st : AccountState) :
    (setAccount s a st).notarisationQuorum = s.notarisationQuorum := rfl

@[simp] theorem notarisationQuorum_setVotes (s : VState) (a n : Nat) (vs : List Vote) :
    (setVotes s a n vs).notarisationQuorum = s.notarisationQuorum := rfl


theorem dedup_length_le_append {α : Type} [DecidableEq α] (a b : List α) :
    a.dedup.length ≤ (a ++ b).dedup.length := by
  rw [← List.card_toFinset, ← List.card_toFinset, List.toFinset_append]
  exact Finset.card_le_card Finset.subset_union_left

theorem countQuorum_append_le (l l2 : List Vote) (k : Option Tx) :
    countQuorum l k ≤ countQuorum (l ++ l2) k := by
  unfold countQuorum
  rw [List.filter_append, List.map_append]
  exact dedup_length_le_append _ _

theorem mem_quorumKeys_aux (l : List Vote) (acc : List (Option Tx)) (k : Option Tx) :
    (k ∈ l.foldl (fun acc v => if voteTxHash v ∈ acc then acc else acc ++ [voteTxHash v]) acc)
      ↔ k ∈ acc ∨ ∃ v ∈ l, voteTxHash v = k := by
  induction l generalizing acc with
  | nil => simp
  | cons v l ih =>
    simp only [List.foldl_cons]
    by_cases h : voteTxHash v ∈ acc
    · rw [if_pos h, ih]
      constructor
      · rintro (hk | ⟨w, hw, hwk⟩)
        · exact Or.inl hk
        · exact Or.inr ⟨w, List.mem_cons_of_mem _ hw, hwk⟩
      · rintro (hk | ⟨w, hw, hwk⟩)
        · exact Or.inl hk
        · rcases List.mem_cons.mp hw with rfl | hw'
          · exact Or.inl (hwk ▸ h)
          · exact Or.inr ⟨w, hw', hwk⟩
    · rw [if_neg h, ih]
      constructor
      · rintro (hk | ⟨w, hw, hwk⟩)
        · rcases List.mem_append.mp hk with hk' | hk'
          · exact Or.inl hk'
          · exact Or.inr ⟨v, List.mem_cons_self _ _, (List.mem_singleton.mp hk').symm⟩
        · exact Or.inr ⟨w, List.mem_cons_of_mem _ hw, hwk⟩
      · rintro (hk | ⟨w, hw, hwk⟩)
        · exact Or.inl (List.mem_append.mpr (Or.inl hk))
        · rcases List.mem_cons.mp hw with rfl | hw'
          · exact Or.inl (List.mem_append.mpr (Or.inr (List.mem_singleton.mpr hwk.symm)))
          · exact Or.inr ⟨w, hw', hwk⟩

theorem mem_quorumKeys (l : List Vote) (k : Option Tx) :
    k ∈ quorumKeys l ↔ ∃ v ∈ l, voteTxHash v = k := by
  unfold quorumKeys
  rw [mem_quorumKeys_aux]
  simp

theorem countQuorum_eq_zero_of_not_mem (l : List Vote) (k : Option Tx)
    (h : k ∉ quorumKeys l) : countQuorum l k = 0 := by
  rw [mem_quorumKeys] at h
  unfold countQuorum
  have hf : l.filter (fun v => decide (voteTxHash v = k)) = [] := by
    rw [List.filter_eq_nil_iff]
    intro v hv
    simp only [decide_eq_true_eq]
    exact fun hk => h ⟨v, hv, hk⟩
  simp [hf]

theorem foldl_best_init_le (f : Option Tx → Nat) (keys : List (Option Tx))
    (init : Nat × Option Tx) :
    init.1 ≤ (keys.foldl (fun b k => if f k > b.1 then (f k, k) else b) init).1 := by
  induction keys generalizing init with
  | nil => exact le_refl _
  | cons k keys ih =>
    simp only [List.foldl_cons]
    by_cases h : f k > init.1
    · rw [if_pos h]
      exact le_trans (le_of_lt h) (ih (f k, k))
    · rw [if_neg h]
      exact ih init

theorem foldl_best_ge (f : Option Tx → Nat) (keys : List (Option Tx))
    (init : Nat × Option Tx) :
    ∀ k ∈ keys, f k ≤ (keys.foldl (fun b k => if f k > b.1 then (f k, k) else b) init).1 := by
  induction keys generalizing init with
  | nil => intro k hk; cases hk
  | cons k0 keys ih =>
    intro k hk
    simp only [List.foldl_cons]
    rcases List.mem_cons.mp hk with rfl | hk'
    · by_cases h : f k > init.1
      · rw [if_pos h]
        exact foldl_best_init_le f keys (f k, k)
      · rw [if_neg h]
        exact le_trans (Nat.le_of_not_lt h) (foldl_best_init_le f keys init)
    · by_cases h : f k0 > init.1
      · rw [if_pos h]
        exact ih _ k hk'
      · rw [if_neg h]
        exact ih _ k hk'

theorem foldl_best_mem (f : Option Tx → Nat) (keys : List (Option Tx))
    (init : Nat × Option Tx) :
    (keys.foldl (fun b k => if f k > b.1 then (f k, k) else b) init) = init ∨
      ∃ k ∈ keys, (keys.foldl (fun b k => if f k > b.1 then (f k, k) else b) init) = (f k, k) := by
  induction keys generalizing init with
  | nil => exact Or.inl rfl
  | cons k0 keys ih =>
    simp only [List.foldl_cons]
    by_cases h : f k0 > init.1
    · rw [if_pos h]
      rcases ih (f k0, k0) with h' | ⟨k, hk, h'⟩
      · exact Or.inr ⟨k0, List.mem_cons_self _ _, h'⟩
      · exact Or.inr ⟨k, List.mem_cons_of_mem _ hk, h'⟩
    · rw [if_neg h]
      rcases ih init with h' | ⟨k, hk, h'⟩
      · exact Or.inl h'
      · exact Or.inr ⟨k, List.mem_cons_of_mem _ hk, h'⟩

theorem le_maxQuorum (l : List Vote) (k : Option Tx) :
    countQuorum l k ≤ (getMaxQuorumCert l).1 := by
  have hcb : countQuorum l k ≤
      ((quorumKeys l).foldl
        (fun (b : Nat × Option Tx) k => if countQuorum l k > b.1 then (countQuorum l k, k) else b)
        (0, none)).1 := by
    by_cases hk : k ∈ quorumKeys l
    · exact foldl_best_ge (fun k => countQuorum l k) (quorumKeys l) (0, none) k hk
    · rw [countQuorum_eq_zero_of_not_mem l k hk]
      exact Nat.zero_le _
  unfold getMaxQuorumCert
  simp only []
  split
  · exact hcb
  · next hb =>
    have : ((quorumKeys l).foldl
        (fun (b : Nat × Option Tx) k => if countQuorum l k > b.1 then (countQuorum l k, k) else b)
        (0, none)).1 = 0 := Nat.lt_one_iff.mp (Nat.lt_of_not_le hb)
    rw [this] at hcb
    exact hcb

theorem maxQuorum_exists (l : List Vote) :
    (getMaxQuorumCert l).1 = 0 ∨ ∃ k, (getMaxQuorumCert l).1 = countQuorum l k := by
  unfold getMaxQuorumCert
  simp only []
  split
  · rcases foldl_best_mem (fun k => countQuorum l k) (quorumKeys l) (0, none) with h | ⟨k, _, h⟩
    · rw [h]
      exact Or.inl rfl
    · rw [h]
      exact Or.inr ⟨k, rfl⟩
  · exact Or.inl rfl

theorem maxQuorum_append_le (l l2 : List Vote) :
    (getMaxQuorumCert l).1 ≤ (getMaxQuorumCert (l ++ l2)).1 := by
  rcases maxQuorum_exists l with h | ⟨k, h⟩
  · rw [h]
    exact Nat.zero_le _
  · rw [h]
    exact le_trans (countQuorum_append_le l l2 k) (le_maxQuorum (l ++ l2) k)

/-
Lemma layer: state-evolution facts about the certificate processor.
-/

theorem AccountsEvolve.rfl (s : VState) : AccountsEvolve s s :=
  ⟨Eq.refl _, Eq.refl _, Eq.refl _, Eq.refl _, fun _ => le_refl _, fun _ => le_refl _,
    fun h => h, fun _ _ h => h⟩

theorem AccountsEvolve.comp {s1 s2 s3 : VState}
    (h12 : AccountsEvolve s1 s2) (h23 : AccountsEvolve s2 s3) : AccountsEvolve s1 s3 := by
  obtain ⟨a1, a2, a3, a4, a5, a6, a7, a8⟩ := h12
  obtain ⟨b1, b2, b3, b4, b5, b6, b7, b8⟩ := h23
  exact ⟨b1.trans a1, b2.trans a2, b3.trans a3, b4.trans a4,
    fun x => le_trans (a5 x) (b5 x), fun x => le_trans (a6 x) (b6 x),
    fun h => b7 (a7 h), fun m x h => b8 m x (a8 m x h)⟩

theorem accountsEvolve_setVotes (s : VState) (a n : Nat) (vs : List Vote) :
    AccountsEvolve s (setVotes s a n vs) :=
  ⟨Eq.refl _, Eq.refl _, Eq.refl _, Eq.refl _, fun _ => le_refl _, fun _ => le_refl _,
    fun h => h, fun _ _ h => h⟩

theorem accountsEvolve_setPending (s : VState) (a : Nat) :
    AccountsEvolve s (setAccount s a { getAccount s a with pending := true }) := by
  refine ⟨Eq.refl _, Eq.refl _, Eq.refl _, Eq.refl _, ?_, ?_, ?_, ?_⟩
  · intro x
    by_cases hx : x = a <;> simp [hx]
  · intro x
    by_cases hx : x = a <;> simp [hx]
  · intro h x
    by_cases hx : x = a <;> simp [hx]
    · exact h a
    · exact h x
  · intro m x h
    unfold ReplayInv at h ⊢
    by_cases hx : x = a
    · subst hx
      simp
      exact h.1
    · simp [hx]
      exact h

theorem accountsEvolve_advance (s : VState) (a n : Nat)
    (hn : n = (getAccount s a).nonce) :
    AccountsEvolve s (setAccount s a { getAccount s a with nonce := n + 1, pending := false }) := by
  refine ⟨Eq.refl _, Eq.refl _, Eq.refl _, Eq.refl _, ?_, ?_, ?_, ?_⟩
  · intro x
    by_cases hx : x = a
    · subst hx
      simp
      omega
    · simp [hx]
  · intro x
    by_cases hx : x = a <;> simp [hx]
  · intro h x
    by_cases hx : x = a
    · subst hx
      have hfx := h x
      simp
      omega
    · simp [hx]
      exact h x
  · intro m x h
    unfold ReplayInv at h ⊢
    by_cases hx : x = a
    · subst hx
      obtain ⟨h1, _⟩ := h
      simp
      omega
    · simp [hx]
      exact h

theorem executeTransfer_fields (s : VState) (t : Tx) (x : Nat) :
    (getAccount (executeTransfer s t) x).nonce = (getAccount s x).nonce ∧
    (getAccount (executeTransfer s t) x).pending = (getAccount s x).pending ∧
    (getAccount (executeTransfer s t) x).finalised = (getAccount s x).finalised := by
  unfold executeTransfer
  simp only [getAccount_setAccount]
  split_ifs <;> simp_all

theorem executeTransfer_config (s : VState) (t : Tx) :
    (executeTransfer s t).self = s.self ∧
    (executeTransfer s t).validatorSet = s.validatorSet ∧
    (executeTransfer s t).finalityQuorum = s.finalityQuorum ∧
    (executeTransfer s t).notarisationQuorum = s.notarisationQuorum ∧
    (executeTransfer s t).voteStore = s.voteStore := by
  unfold executeTransfer
  exact ⟨Eq.refl _, Eq.refl _, Eq.refl _, Eq.refl _, Eq.refl _⟩

theorem phase1_err_inv {s s1 : VState} {a n : Nat} {e : Err}
    (h : phase1 s a n = .err s1 e) :
    s1 = setAccount s a { getAccount s a with pending := true } ∧
    verifyVote ⟨s.self, a, n, none, true⟩ s.validatorSet = false ∧
    (getMaxQuorumCert (s.voteStore a n)).1 < s.notarisationQuorum := by
  unfold phase1 at h
  dsimp only at h
  split at h
  · split at h
    · next hq =>
      split at h
      · split at h
        · next hv =>
          injection h with h1 h2
          exact ⟨h1.symm, hv, hq⟩
        · split at h <;> cases h
      · cases h
    · split at h <;> cases h
  · cases h

theorem phase1_botDropped_inv {s s1 : VState} {a n : Nat} {bot : Vote}
    (h : phase1 s a n = .botDropped s1 bot) : False := by
  unfold phase1 at h
  dsimp only at h
  split at h
  · split at h
    · split at h
      · next hcl =>
        split at h
        · cases h
        · split at h
          · next hdrop =>
            exfalso
            simp only [voteDropped, voteStore_setAccount] at hdrop
            rw [hcl.2] at hdrop
            cases hdrop
          · cases h
      · cases h
    · split at h <;> cases h
  · cases h

theorem phase1_castBot_inv {s s2 : VState} {a n : Nat} {bot : Vote}
    (h : phase1 s a n = .castBot s2 bot) :
    botCastCondition s a n ∧
    bot = ⟨s.self, a, n, none, true⟩ ∧
    s2 = setVotes (setAccount s a { getAccount s a with pending := true }) a n
      (s.voteStore a n ++ [⟨s.self, a, n, none, true⟩]) := by
  unfold phase1 at h
  dsimp only at h
  split at h
  · next hn =>
    split at h
    · next hq =>
      split at h
      · next hcl =>
        split at h
        · cases h
        · split at h
          · cases h
          · injection h with h1 h2
            refine ⟨⟨hn, hq, hcl.1, ?_⟩, h2.symm, ?_⟩
            · unfold hasSelfBotAt
              exact hcl.2
            · exact h1.symm
      · cases h
    · split at h <;> cases h
  · cases h

theorem phase1_advanced_inv {s s1 : VState} {a n : Nat}
    (h : phase1 s a n = .advanced s1) :
    n = (getAccount s a).nonce ∧ (getAccount s a).pending = true ∧
    s.notarisationQuorum ≤ (getMaxQuorumCert (s.voteStore a n)).1 ∧
    s1 = setAccount s a { getAccount s a with nonce := n + 1, pending := false } := by
  unfold phase1 at h
  dsimp only at h
  split at h
  · next hn =>
    split at h
    · split at h
      · split at h
        · cases h
        · split at h <;> cases h
      · cases h
    · next hq =>
      split at h
      · next hp =>
        injection h with h1
        exact ⟨hn, hp, Nat.le_of_not_lt hq, h1.symm⟩
      · cases h
  · cases h

theorem phase1_idle_inv {s : VState} {a n : Nat}
    (h : phase1 s a n = .idle) : ¬ botCastCondition s a n := by
  unfold phase1 at h
  unfold botCastCondition hasSelfBotAt
  dsimp only at h
  split at h
  · split at h
    · split at h
      · split at h
        · cases h
        · split at h <;> cases h
      · next hlen =>
        rintro ⟨_, _, hl, hb⟩
        exact hlen ⟨hl, hb⟩
    · next hq =>
      rintro ⟨_, hq2, _, _⟩
      exact hq hq2
  · next hn =>
    rintro ⟨hn2, _, _, _⟩
    exact hn hn2

theorem accountsEvolve_executeTransfer (s : VState) (t : Tx) :
    AccountsEvolve s (executeTransfer s t) := by
  refine ⟨(executeTransfer_config s t).1, (executeTransfer_config s t).2.1,
    (executeTransfer_config s t).2.2.1, (executeTransfer_config s t).2.2.2.1, ?_, ?_, ?_, ?_⟩
  · intro x
    rw [(executeTransfer_fields s t x).1]
  · intro x
    rw [(executeTransfer_fields s t x).2.2]
  · intro h x
    rw [(executeTransfer_fields s t x).1, (executeTransfer_fields s t x).2.2]
    exact h x
  · intro m x h
    unfold ReplayInv at h ⊢
    rw [(executeTransfer_fields s t x).1, (executeTransfer_fields s t x).2.1]
    exact h

theorem accountsEvolve_finalise_advance (s s1 : VState) (a n : Nat)
    (hconf : s1.self = s.self ∧ s1.validatorSet = s.validatorSet ∧
      s1.finalityQuorum = s.finalityQuorum ∧ s1.notarisationQuorum = s.notarisationQuorum)
    (hfields : ∀ x, (getAccount s1 x).nonce = (getAccount s x).nonce ∧
        (getAccount s1 x).pending = (getAccount s x).pending ∧
        (getAccount s1 x).finalised = (getAccount s x).finalised)
    (hfin : (getAccount s a).finalised < (n : Int))
    (hn2 : (getAccount s a).nonce ≤ n) :
    AccountsEvolve s (setAccount (setAccount s1 a { getAccount s1 a with finalised := (n : Int) }) a
      { getAccount (setAccount s1 a { getAccount s1 a with finalised := (n : Int) }) a with
        nonce := n + 1, pending := false }) := by
  refine ⟨hconf.1, hconf.2.1, hconf.2.2.1, hconf.2.2.2, ?_, ?_, ?_, ?_⟩
  · intro x
    by_cases hx : x = a
    · subst hx
      simp
      omega
    · simp [hx, (hfields x).1]
  · intro x
    by_cases hx : x = a
    · subst hx
      simp
      exact le_of_lt hfin
    · simp [hx, (hfields x).2.2]
  · intro h x
    by_cases hx : x = a
    · subst hx
      simp
    · simp [hx, (hfields x).1, (hfields x).2.2]
      exact h x
  · intro m x h
    unfold ReplayInv at h ⊢
    by_cases hx : x = a
    · subst hx
      simp
      omega
    · simp [hx, (hfields x).1, (hfields x).2.1]
      exact h

theorem accountsEvolve_finalise_keep (s s1 : VState) (a n : Nat)
    (hconf : s1.self = s.self ∧ s1.validatorSet = s.validatorSet ∧
      s1.finalityQuorum = s.finalityQuorum ∧ s1.notarisationQuorum = s.notarisationQuorum)
    (hfields : ∀ x, (getAccount s1 x).nonce = (getAccount s x).nonce ∧
        (getAccount s1 x).pending = (getAccount s x).pending ∧
        (getAccount s1 x).finalised = (getAccount s x).finalised)
    (hfin : (getAccount s a).finalised < (n : Int))
    (hn2 : n < (getAccount s a).nonce) :
    AccountsEvolve s (setAccount s1 a { getAccount s1 a with finalised := (n : Int) }) := by
  refine ⟨hconf.1, hconf.2.1, hconf.2.2.1, hconf.2.2.2, ?_, ?_, ?_, ?_⟩
  · intro x
    by_cases hx : x = a
    · subst hx
      simp [(hfields x).1]
    · simp [hx, (hfields x).1]
  · intro x
    by_cases hx : x = a
    · subst hx
      simp
      exact le_of_lt hfin
    · simp [hx, (hfields x).2.2]
  · intro h x
    by_cases hx : x = a
    · subst hx
      simp [(hfields x).1]
      exact_mod_cast hn2
    · simp [hx, (hfields x).1, (hfields x).2.2]
      exact h x
  · intro m x h
    unfold ReplayInv at h ⊢
    by_cases hx : x = a
    · subst hx
      simp [(hfields x).1, (hfields x).2.1]
      exact h
    · simp [hx]
      rw [(hfields x).1, (hfields x).2.1]
      exact h

theorem finalityPhase_facts (s : VState) (a n q : Nat) (txm : Option Tx) :
    AccountsEvolve s (finalityPhase s a n q txm).1 ∧
    (finalityPhase s a n q txm).1.voteStore = s.voteStore ∧
    ((finalityPhase s a n q txm).2 = true →
      (getAccount (finalityPhase s a n q txm).1 a).nonce = n + 1) := by
  unfold finalityPhase
  dsimp only
  split
  · exact ⟨AccountsEvolve.rfl s, rfl, fun h => absurd h (by simp)⟩
  · next t =>
    split
    · next hg =>
      split
      · next horig =>
        by_cases ht : ((getTxChainStart t).nonce : Int) = (getAccount s a).finalised + 1
        · rw [if_pos ht]
          split
          · next hinc =>
            refine ⟨?_, rfl, fun _ => by simp⟩
            refine accountsEvolve_finalise_advance s (executeTransfer s (getTxChainStart t)) a n
              ⟨rfl, rfl, rfl, rfl⟩ (fun x => executeTransfer_fields s (getTxChainStart t) x)
              hg.2 ?_
            simpa [(executeTransfer_fields s (getTxChainStart t) a).1] using hinc
          · next hinc =>
            refine ⟨?_, rfl, fun h => absurd h (by simp)⟩
            refine accountsEvolve_finalise_keep s (executeTransfer s (getTxChainStart t)) a n
              ⟨rfl, rfl, rfl, rfl⟩ (fun x => executeTransfer_fields s (getTxChainStart t) x)
              hg.2 ?_
            have := Nat.lt_of_not_le hinc
            simpa [(executeTransfer_fields s (getTxChainStart t) a).1] using this
        · rw [if_neg ht]
          split
          · next hinc =>
            refine ⟨?_, rfl, fun _ => by simp⟩
            refine accountsEvolve_finalise_advance s s a n ⟨rfl, rfl, rfl, rfl⟩
              (fun x => ⟨rfl, rfl, rfl⟩) hg.2 ?_
            simpa using hinc
          · next hinc =>
            refine ⟨?_, rfl, fun h => absurd h (by simp)⟩
            refine accountsEvolve_finalise_keep s s a n ⟨rfl, rfl, rfl, rfl⟩
              (fun x => ⟨rfl, rfl, rfl⟩) hg.2 ?_
            simpa using Nat.lt_of_not_le hinc
      · exact ⟨AccountsEvolve.rfl s, rfl, fun h => absurd h (by simp)⟩
    · exact ⟨AccountsEvolve.rfl s, rfl, fun h => absurd h (by simp)⟩

theorem pc_empty (fuel : Nat) (s : VState) (a n : Nat)
    (hnil : s.voteStore a n = [])
    (hnq : 1 ≤ s.notarisationQuorum) (hfq : 1 ≤ s.finalityQuorum) :
    processCertificate fuel s a n = ⟨s, [], none⟩ := by
  cases fuel with
  | zero => rfl
  | succ f =>
    have h0 : (getMaxQuorumCert (s.voteStore a n)).1 = 0 := by
      rw [hnil]
      rfl
    have hphase : phase1 s a n = .idle := by
      unfold phase1
      dsimp only
      split
      · rw [if_pos (show (getMaxQuorumCert (s.voteStore a n)).1 < s.notarisationQuorum by
          rw [h0]; omega)]
        rw [if_neg (show ¬((s.voteStore a n).length ≥ s.finalityQuorum ∧ _) by
          simp [hnil]; omega)]
      · rfl
    simp only [processCertificate]
    rw [hphase]
    dsimp only
    rw [hnil]
    rfl

theorem pc_evolve (fuel : Nat) : ∀ (s : VState) (a n : Nat),
    AccountsEvolve s (processCertificate fuel s a n).state := by
  induction fuel with
  | zero =>
    intro s a n
    exact AccountsEvolve.rfl s
  | succ f ih =>
    intro s a n
    simp only [processCertificate]
    rcases hp : phase1 s a n with ⟨s1, e⟩ | ⟨s2, bot⟩ | ⟨s1, bot⟩ | s1 | _
    · obtain ⟨hs1, _, _⟩ := phase1_err_inv hp
      rw [hs1]
      exact accountsEvolve_setPending s a
    · obtain ⟨hcond, hbot, hs2⟩ := phase1_castBot_inv hp
      have hevo2 : AccountsEvolve s s2 := by
        rw [hs2]
        exact AccountsEvolve.comp (accountsEvolve_setPending s a)
          (accountsEvolve_setVotes _ a n _)
      rcases hr : (processCertificate f s2 a n).err with _ | e
      · dsimp only
        rw [hr]
        dsimp only
        have hevo3 : AccountsEvolve s (processCertificate f s2 a n).state :=
          AccountsEvolve.comp hevo2 (ih s2 a n)
        rcases hfr : (finalityPhase (processCertificate f s2 a n).state a n
            (getMaxQuorumCert (s.voteStore a n)).1 (getMaxQuorumCert (s.voteStore a n)).2).2 with _ | _
        · rw [if_neg (by simp)]
          exact AccountsEvolve.comp hevo3 (finalityPhase_facts _ a n _ _).1
        · rw [if_pos rfl]
          refine AccountsEvolve.comp (AccountsEvolve.comp hevo3 (finalityPhase_facts _ a n _ _).1)
            (ih _ a _)
      · dsimp only
        rw [hr]
        dsimp only
        exact AccountsEvolve.comp hevo2 (ih s2 a n)
    · exact absurd hp (fun hh => phase1_botDropped_inv hh)
    · obtain ⟨hn, hpend, hq, hs1⟩ := phase1_advanced_inv hp
      dsimp only
      have hevo1 : AccountsEvolve s s1 := by
        rw [hs1]
        exact accountsEvolve_advance s a n hn
      exact AccountsEvolve.comp
        (AccountsEvolve.comp hevo1 (finalityPhase_facts s1 a n _ _).1) (ih _ a _)
    · dsimp only
      rcases hfr : (finalityPhase s a n
          (getMaxQuorumCert (s.voteStore a n)).1 (getMaxQuorumCert (s.voteStore a n)).2).2 with _ | _
      · rw [if_neg (by simp)]
        exact (finalityPhase_facts s a n _ _).1
      · rw [if_pos rfl]
        exact AccountsEvolve.comp (finalityPhase_facts s a n _ _).1 (ih _ a _)

theorem storeGrow_rfl (s : VState) (a n : Nat) : StoreGrow s s a n :=
  fun x m => ⟨[], by simp, by simp⟩

theorem storeGrow_of_eq {s s' : VState} (a n : Nat) (h : s'.voteStore = s.voteStore) :
    StoreGrow s s' a n :=
  fun x m => ⟨[], by rw [h]; simp, by simp⟩

theorem storeGrow_comp {s s2 s3 : VState} {a n n2 : Nat}
    (h1 : StoreGrow s s2 a n) (h2 : StoreGrow s2 s3 a n2)
    (hself : s2.self = s.self) (hn : n ≤ n2) : StoreGrow s s3 a n := by
  intro x m
  obtain ⟨l1, e1, p1⟩ := h1 x m
  obtain ⟨l2, e2, p2⟩ := h2 x m
  refine ⟨l1 ++ l2, ?_, ?_⟩
  · rw [e2, e1, List.append_assoc]
  · intro v hv
    rcases List.mem_append.mp hv with h | h
    · exact p1 v h
    · obtain ⟨q1, q2, q3, q4⟩ := p2 v h
      exact ⟨hself ▸ q1, q2, q3, le_trans hn q4⟩

theorem storeGrow_castBot (s : VState) (a n : Nat) :
    StoreGrow s (setVotes (setAccount s a { getAccount s a with pending := true }) a n
      (s.voteStore a n ++ [⟨s.self, a, n, none, true⟩])) a n := by
  intro x m
  by_cases hx : x = a ∧ m = n
  · refine ⟨[⟨s.self, a, n, none, true⟩], ?_, ?_⟩
    · simp [hx.1, hx.2]
    · intro v hv
      rw [List.mem_singleton] at hv
      subst hv
      exact ⟨rfl, rfl, rfl, le_refl n⟩
  · exact ⟨[], by simp [hx], by simp⟩

theorem pc_store (fuel : Nat) : ∀ (s : VState) (a n : Nat),
    StoreGrow s (processCertificate fuel s a n).state a n ∧
    (∀ v ∈ (processCertificate fuel s a n).emitted,
      v.validator = s.self ∧ v.tx = none ∧ v.account = a ∧ n ≤ v.nonce) := by
  induction fuel with
  | zero =>
    intro s a n
    exact ⟨storeGrow_rfl s a n, by intro v hv; cases hv⟩
  | succ f ih =>
    intro s a n
    simp only [processCertificate]
    rcases hp : phase1 s a n with ⟨s1, e⟩ | ⟨s2, bot⟩ | ⟨s1, bot⟩ | s1 | _
    · obtain ⟨hs1, _, _⟩ := phase1_err_inv hp
      rw [hs1]
      exact ⟨storeGrow_of_eq a n rfl, by intro v hv; cases hv⟩
    · obtain ⟨hcond, hbot, hs2⟩ := phase1_castBot_inv hp
      have hself2 : s2.self = s.self := by rw [hs2]; rfl
      have hgrow2 : StoreGrow s s2 a n := by
        rw [hs2]
        exact storeGrow_castBot s a n
      have hnonce2 : (getAccount s2 a).nonce = n := by
        rw [hs2]
        simp
        exact hcond.1.symm
      have hir := ih s2 a n
      have hevo_r := pc_evolve f s2 a n
      rcases hr : (processCertificate f s2 a n).err with _ | e
      · dsimp only
        rw [hr]
        dsimp only
        have hbotfact : (⟨s.self, a, n, none, true⟩ : Vote).validator = s.self ∧
            (⟨s.self, a, n, none, true⟩ : Vote).tx = none ∧
            (⟨s.self, a, n, none, true⟩ : Vote).account = a ∧
            n ≤ (⟨s.self, a, n, none, true⟩ : Vote).nonce := ⟨rfl, rfl, rfl, le_refl n⟩
        have hff := finalityPhase_facts (processCertificate f s2 a n).state a n
          (getMaxQuorumCert (s.voteStore a n)).1 (getMaxQuorumCert (s.voteStore a n)).2
        have hgrow_r : StoreGrow s (processCertificate f s2 a n).state a n :=
          storeGrow_comp hgrow2 hir.1 hself2 (le_refl n)
        have hself_r : (processCertificate f s2 a n).state.self = s.self :=
          hevo_r.1.trans hself2
        have hgrow_fr : StoreGrow s
            (finalityPhase (processCertificate f s2 a n).state a n
              (getMaxQuorumCert (s.voteStore a n)).1 (getMaxQuorumCert (s.voteStore a n)).2).1 a n :=
          storeGrow_comp hgrow_r (storeGrow_of_eq a n hff.2.1) hself_r (le_refl n)
        have hself_fr : (finalityPhase (processCertificate f s2 a n).state a n
            (getMaxQuorumCert (s.voteStore a n)).1 (getMaxQuorumCert (s.voteStore a n)).2).1.self
            = s.self := hff.1.1.trans hself_r
        have hnonce_fr : n ≤ (getAccount
            (finalityPhase (processCertificate f s2 a n).state a n
              (getMaxQuorumCert (s.voteStore a n)).1 (getMaxQuorumCert (s.voteStore a n)).2).1 a).nonce := by
          have h1 : n ≤ (getAccount (processCertificate f s2 a n).state a).nonce := by
            have := hevo_r.2.2.2.2.1 a
            rw [hnonce2] at this
            exact this
          exact le_trans h1 (hff.1.2.2.2.2.1 a)
        rcases hfr : (finalityPhase (processCertificate f s2 a n).state a n
            (getMaxQuorumCert (s.voteStore a n)).1 (getMaxQuorumCert (s.voteStore a n)).2).2 with _ | _
        · rw [if_neg (by simp)]
          refine ⟨hgrow_fr, ?_⟩
          intro v hv
          rcases List.mem_append.mp hv with h | h
          · exact hir.2 v h |>.imp (fun q => hself2 ▸ q) id
          · rw [List.mem_singleton] at h
            subst h
            rw [hbot]
            exact hbotfact
        · rw [if_pos rfl]
          dsimp only
          have hir2 := ih (finalityPhase (processCertificate f s2 a n).state a n
              (getMaxQuorumCert (s.voteStore a n)).1 (getMaxQuorumCert (s.voteStore a n)).2).1 a
            (getAccount
              (finalityPhase (processCertificate f s2 a n).state a n
                (getMaxQuorumCert (s.voteStore a n)).1 (getMaxQuorumCert (s.voteStore a n)).2).1 a).nonce
          refine ⟨storeGrow_comp hgrow_fr hir2.1 hself_fr hnonce_fr, ?_⟩
          intro v hv
          rcases List.mem_append.mp hv with h | h
          · rcases List.mem_append.mp h with h2 | h2
            · exact hir.2 v h2 |>.imp (fun q => hself2 ▸ q) id
            · rw [List.mem_singleton] at h2
              subst h2
              rw [hbot]
              exact hbotfact
          · obtain ⟨q1, q2, q3, q4⟩ := hir2.2 v h
            exact ⟨hself_fr ▸ q1, q2, q3, le_trans hnonce_fr q4⟩
      · dsimp only
        rw [hr]
        dsimp only
        refine ⟨storeGrow_comp hgrow2 hir.1 hself2 (le_refl n), ?_⟩
        intro v hv
        exact hir.2 v hv |>.imp (fun q => hself2 ▸ q) id
    · exact absurd hp (fun hh => phase1_botDropped_inv hh)
    · obtain ⟨hn, hpend, hq, hs1⟩ := phase1_advanced_inv hp
      dsimp only
      have hself1 : s1.self = s.self := by rw [hs1]; rfl
      have hstore1 : s1.voteStore = s.voteStore := by rw [hs1]; rfl
      have hnonce1 : (getAccount s1 a).nonce = n + 1 := by
        rw [hs1]
        simp
      have hff := finalityPhase_facts s1 a n
        (getMaxQuorumCert (s.voteStore a n)).1 (getMaxQuorumCert (s.voteStore a n)).2
      have hself_fr : (finalityPhase s1 a n (getMaxQuorumCert (s.voteStore a n)).1
          (getMaxQuorumCert (s.voteStore a n)).2).1.self = s.self := hff.1.1.trans hself1
      have hnonce_fr : n ≤ (getAccount (finalityPhase s1 a n
          (getMaxQuorumCert (s.voteStore a n)).1
          (getMaxQuorumCert (s.voteStore a n)).2).1 a).nonce := by
        have h1 := hff.1.2.2.2.2.1 a
        rw [hnonce1] at h1
        omega
      have hgrow_fr : StoreGrow s (finalityPhase s1 a n
          (getMaxQuorumCert (s.voteStore a n)).1
          (getMaxQuorumCert (s.voteStore a n)).2).1 a n :=
        storeGrow_comp (storeGrow_of_eq a n hstore1) (storeGrow_of_eq a n hff.2.1)
          hself1 (le_refl n)
      have hir2 := ih (finalityPhase s1 a n
          (getMaxQuorumCert (s.voteStore a n)).1
          (getMaxQuorumCert (s.voteStore a n)).2).1 a
        (getAccount (finalityPhase s1 a n
          (getMaxQuorumCert (s.voteStore a n)).1
          (getMaxQuorumCert (s.voteStore a n)).2).1 a).nonce
      refine ⟨storeGrow_comp hgrow_fr hir2.1 hself_fr hnonce_fr, ?_⟩
      intro v hv
      obtain ⟨q1, q2, q3, q4⟩ := hir2.2 v hv
      exact ⟨hself_fr ▸ q1, q2, q3, le_trans hnonce_fr q4⟩
    · dsimp only
      have hff := finalityPhase_facts s a n
        (getMaxQuorumCert (s.voteStore a n)).1 (getMaxQuorumCert (s.voteStore a n)).2
      rcases hfr : (finalityPhase s a n
          (getMaxQuorumCert (s.voteStore a n)).1 (getMaxQuorumCert (s.voteStore a n)).2).2 with _ | _
      · rw [if_neg (by simp)]
        exact ⟨storeGrow_of_eq a n hff.2.1, by intro v hv; cases hv⟩
      · rw [if_pos rfl]
        dsimp only
        have hnonce_fr : (getAccount (finalityPhase s a n
            (getMaxQuorumCert (s.voteStore a n)).1
            (getMaxQuorumCert (s.voteStore a n)).2).1 a).nonce = n + 1 := hff.2.2 hfr
        have hir2 := ih (finalityPhase s a n
            (getMaxQuorumCert (s.voteStore a n)).1
            (getMaxQuorumCert (s.voteStore a n)).2).1 a
          (getAccount (finalityPhase s a n
            (getMaxQuorumCert (s.voteStore a n)).1
            (getMaxQuorumCert (s.voteStore a n)).2).1 a).nonce
        refine ⟨storeGrow_comp (storeGrow_of_eq a n hff.2.1) hir2.1 hff.1.1 (by omega), ?_⟩
        intro v hv
        obtain ⟨q1, q2, q3, q4⟩ := hir2.2 v hv
        exact ⟨hff.1.1 ▸ q1, q2, q3, by omega⟩

theorem pc_err_none (fuel : Nat) : ∀ (s : VState) (a n : Nat),
    s.validatorSet.contains s.self = true →
    (processCertificate fuel s a n).err = none := by
  induction fuel with
  | zero =>
    intro s a n _
    rfl
  | succ f ih =>
    intro s a n hmem
    simp only [processCertificate]
    rcases hp : phase1 s a n with ⟨s1, e⟩ | ⟨s2, bot⟩ | ⟨s1, bot⟩ | s1 | _
    · obtain ⟨_, hver, _⟩ := phase1_err_inv hp
      unfold verifyVote at hver
      rw [hmem] at hver
      simp at hver
    · obtain ⟨hcond, hbot, hs2⟩ := phase1_castBot_inv hp
      have hmem2 : s2.validatorSet.contains s2.self = true := by
        rw [hs2]
        exact hmem
      rcases hr : (processCertificate f s2 a n).err with _ | e
      · dsimp only
        rw [hr]
        dsimp only
        have hevo_r := pc_evolve f s2 a n
        have hff := finalityPhase_facts (processCertificate f s2 a n).state a n
          (getMaxQuorumCert (s.voteStore a n)).1 (getMaxQuorumCert (s.voteStore a n)).2
        rcases hfr : (finalityPhase (processCertificate f s2 a n).state a n
            (getMaxQuorumCert (s.voteStore a n)).1 (getMaxQuorumCert (s.voteStore a n)).2).2 with _ | _
        · rw [if_neg (by simp)]
        · rw [if_pos rfl]
          dsimp only
          refine ih _ a _ ?_
          rw [hff.1.1, hff.1.2.1, hevo_r.1, hevo_r.2.1]
          exact hmem2
      · have := ih s2 a n hmem2
        rw [hr] at this
        cases this
    · exact absurd hp (fun hh => phase1_botDropped_inv hh)
    · obtain ⟨hn, hpend, hq, hs1⟩ := phase1_advanced_inv hp
      dsimp only
      have hmem1 : s1.validatorSet.contains s1.self = true := by
        rw [hs1]
        exact hmem
      have hff := finalityPhase_facts s1 a n
        (getMaxQuorumCert (s.voteStore a n)).1 (getMaxQuorumCert (s.voteStore a n)).2
      refine ih _ a _ ?_
      rw [hff.1.1, hff.1.2.1]
      exact hmem1
    · dsimp only
      have hff := finalityPhase_facts s a n
        (getMaxQuorumCert (s.voteStore a n)).1 (getMaxQuorumCert (s.voteStore a n)).2
      rcases hfr : (finalityPhase s a n
          (getMaxQuorumCert (s.voteStore a n)).1 (getMaxQuorumCert (s.voteStore a n)).2).2 with _ | _
      · rw [if_neg (by simp)]
      · rw [if_pos rfl]
        dsimp only
        refine ih _ a _ ?_
        rw [hff.1.1, hff.1.2.1]
        exact hmem

theorem phase1_eq_castBot {s : VState} {a n : Nat} (hcond : botCastCondition s a n)
    (hver : verifyVote ⟨s.self, a, n, none, true⟩ s.validatorSet = true) :
    phase1 s a n = .castBot (setVotes (setAccount s a { getAccount s a with pending := true }) a n
      (s.voteStore a n ++ [⟨s.self, a, n, none, true⟩])) ⟨s.self, a, n, none, true⟩ := by
  obtain ⟨h1, h2, h3, h4⟩ := hcond
  unfold hasSelfBotAt at h4
  unfold phase1
  dsimp only
  rw [if_pos h1, if_pos h2, if_pos (⟨h3, h4⟩ :
    (s.voteStore a n).length ≥ s.finalityQuorum ∧
      ((s.voteStore a n).any fun v => decide (v.validator = s.self ∧ v.tx = none)) = false)]
  rw [if_neg (by rw [show verifyVote ⟨s.self, a, n, none, true⟩
    (setAccount s a { getAccount s a with pending := true }).validatorSet = true from hver]; simp)]
  rw [if_neg (by
    show ¬(voteDropped _ _ = true)
    unfold voteDropped
    dsimp only
    rw [voteStore_setAccount]
    rw [h4]
    simp)]
  rfl

theorem pc_emit_gt (fuel : Nat) (s : VState) (a n : Nat)
    (hnc : ∀ s2 bot, phase1 s a n ≠ .castBot s2 bot) :
    ∀ v ∈ (processCertificate fuel s a n).emitted, n < v.nonce := by
  cases fuel with
  | zero =>
    intro v hv
    cases hv
  | succ f =>
    simp only [processCertificate]
    rcases hp : phase1 s a n with ⟨s1, e⟩ | ⟨s2, bot⟩ | ⟨s1, bot⟩ | s1 | _
    · intro v hv
      cases hv
    · exact absurd hp (hnc s2 bot)
    · exact absurd hp (fun hh => phase1_botDropped_inv hh)
    · obtain ⟨hn, hpend, hq, hs1⟩ := phase1_advanced_inv hp
      dsimp only
      have hnonce1 : (getAccount s1 a).nonce = n + 1 := by
        rw [hs1]
        simp
      have hff := finalityPhase_facts s1 a n
        (getMaxQuorumCert (s.voteStore a n)).1 (getMaxQuorumCert (s.voteStore a n)).2
      have hge : n + 1 ≤ (getAccount (finalityPhase s1 a n
          (getMaxQuorumCert (s.voteStore a n)).1
          (getMaxQuorumCert (s.voteStore a n)).2).1 a).nonce := by
        have h1 := hff.1.2.2.2.2.1 a
        rw [hnonce1] at h1
        exact h1
      intro v hv
      have := (pc_store f _ a _).2 v hv
      omega
    · dsimp only
      have hff := finalityPhase_facts s a n
        (getMaxQuorumCert (s.voteStore a n)).1 (getMaxQuorumCert (s.voteStore a n)).2
      rcases hfr : (finalityPhase s a n
          (getMaxQuorumCert (s.voteStore a n)).1 (getMaxQuorumCert (s.voteStore a n)).2).2 with _ | _
      · rw [if_neg (by simp)]
        intro v hv
        cases hv
      · rw [if_pos rfl]
        dsimp only
        have hge : (getAccount (finalityPhase s a n
            (getMaxQuorumCert (s.voteStore a n)).1
            (getMaxQuorumCert (s.voteStore a n)).2).1 a).nonce = n + 1 := hff.2.2 hfr
        intro v hv
        have := (pc_store f _ a _).2 v hv
        omega

theorem onVote_evolve (fuel : Nat) (s : VState) (v : Vote) :
    AccountsEvolve s (onVote fuel s v).state := by
  unfold onVote
  dsimp only
  split
  · exact AccountsEvolve.rfl s
  · split
    · exact AccountsEvolve.rfl s
    · exact AccountsEvolve.comp (accountsEvolve_setVotes s v.account v.nonce _)
        (pc_evolve fuel _ v.account v.nonce)

theorem onTransaction_evolve (fuel : Nat) (s : VState) (tx : Tx) :
    AccountsEvolve s (onTransaction fuel s tx).state := by
  unfold onTransaction
  dsimp only
  split
  · exact AccountsEvolve.rfl s
  · split
    · exact AccountsEvolve.rfl s
    · split
      · exact AccountsEvolve.rfl s
      · split
        · exact AccountsEvolve.rfl s
        · have hbase : AccountsEvolve s (processCertificate fuel
              (setVotes (setAccount s tx.sender { getAccount s tx.sender with pending := true })
                tx.sender tx.nonce
                ((setAccount s tx.sender { getAccount s tx.sender with pending := true }).voteStore
                  tx.sender tx.nonce ++ [⟨s.self, tx.sender, tx.nonce, some tx, true⟩]))
              tx.sender tx.nonce).state :=
            AccountsEvolve.comp
              (AccountsEvolve.comp (accountsEvolve_setPending s tx.sender)
                (accountsEvolve_setVotes _ tx.sender tx.nonce _))
              (pc_evolve fuel _ tx.sender tx.nonce)
          split
          · exact hbase
          · exact hbase

theorem applyOp_evolve (s : VState) (op : Op) : AccountsEvolve s (applyOp s op) := by
  cases op with
  | vote fuel v => exact onVote_evolve fuel s v
  | txn fuel tx => exact onTransaction_evolve fuel s tx

theorem applyOps_evolve (ops : List Op) : ∀ s : VState, AccountsEvolve s (applyOps s ops) := by
  induction ops with
  | nil =>
    intro s
    exact AccountsEvolve.rfl s
  | cons op ops ih =>
    intro s
    exact AccountsEvolve.comp (applyOp_evolve s op) (ih (applyOp s op))

theorem phase1_idle_adv_inv {s : VState} {a n : Nat}
    (h : phase1 s a n = .idle)
    (hq : s.notarisationQuorum ≤ (getMaxQuorumCert (s.voteStore a n)).1) :
    ¬(n = (getAccount s a).nonce ∧ (getAccount s a).pending = true) := by
  unfold phase1 at h
  dsimp only at h
  split at h
  · split at h
    · next hq2 =>
      rintro ⟨_, _⟩
      omega
    · split at h
      · cases h
      · next hp =>
        rintro ⟨_, hpend⟩
        exact hp hpend
  · next hn =>
    rintro ⟨hn2, _⟩
    exact hn hn2

theorem executeTransfer_balance (s : VState) (t : Tx) (x : Nat) :
    (getAccount (executeTransfer s t) x).balance =
      (getAccount s x).balance - (if x = t.sender then (t.value : Int) else 0)
        + (if x = t.recipient then (t.value : Int) else 0) := by
  unfold executeTransfer
  simp only [getAccount_setAccount]
  by_cases h1 : x = t.recipient
  · rw [if_pos h1, if_pos h1]
    by_cases h2 : t.recipient = t.sender
    · rw [if_pos h2]
      dsimp only
      rw [if_pos (h1.trans h2)]
      rw [show t.sender = x from (h1.trans h2).symm]
    · rw [if_neg h2]
      dsimp only
      rw [if_neg (fun hx => h2 (h1 ▸ hx))]
      rw [show t.recipient = x from h1.symm]
      ring
  · rw [if_neg h1, if_neg h1]
    by_cases h2 : x = t.sender
    · rw [if_pos h2, if_pos h2]
      dsimp only
      rw [show t.sender = x from h2.symm]
      ring
    · rw [if_neg h2, if_neg h2]
      ring

theorem finalityPhase_char (s : VState) (a n q : Nat) (T : Tx)
    (hq : s.finalityQuorum ≤ q) (hfin : (getAccount s a).finalised < (n : Int)) :
    (getAccount (finalityPhase s a n q (some T)).1 a).finalised =
      (if ((getTxChainStart T).nonce : Int) = (getAccount s a).finalised ∨
          ((getTxChainStart T).nonce : Int) = (getAccount s a).finalised + 1
       then (n : Int) else (getAccount s a).finalised) ∧
    (getAccount (finalityPhase s a n q (some T)).1 a).nonce =
      (if (((getTxChainStart T).nonce : Int) = (getAccount s a).finalised ∨
          ((getTxChainStart T).nonce : Int) = (getAccount s a).finalised + 1) ∧
          (getAccount s a).nonce ≤ n
       then n + 1 else (getAccount s a).nonce) ∧
    (getAccount (finalityPhase s a n q (some T)).1 a).pending =
      (if (((getTxChainStart T).nonce : Int) = (getAccount s a).finalised ∨
          ((getTxChainStart T).nonce : Int) = (getAccount s a).finalised + 1) ∧
          (getAccount s a).nonce ≤ n
       then false else (getAccount s a).pending) ∧
    (∀ x, (getAccount (finalityPhase s a n q (some T)).1 x).balance =
      (getAccount s x).balance
        - (if ((getTxChainStart T).nonce : Int) = (getAccount s a).finalised + 1 ∧
              x = (getTxChainStart T).sender then ((getTxChainStart T).value : Int) else 0)
        + (if ((getTxChainStart T).nonce : Int) = (getAccount s a).finalised + 1 ∧
              x = (getTxChainStart T).recipient then ((getTxChainStart T).value : Int) else 0)) ∧
    ((finalityPhase s a n q (some T)).2 = true ↔
      (((getTxChainStart T).nonce : Int) = (getAccount s a).finalised ∨
        ((getTxChainStart T).nonce : Int) = (getAccount s a).finalised + 1) ∧
        (getAccount s a).nonce ≤ n) ∧
    (∀ x, x ≠ a → (getAccount (finalityPhase s a n q (some T)).1 x).nonce =
        (getAccount s x).nonce ∧
      (getAccount (finalityPhase s a n q (some T)).1 x).pending = (getAccount s x).pending ∧
      (getAccount (finalityPhase s a n q (some T)).1 x).finalised =
        (getAccount s x).finalised) := by
  unfold finalityPhase
  dsimp only
  rw [if_pos (⟨hq, hfin⟩ : q ≥ s.finalityQuorum ∧ (n : Int) > (getAccount s a).finalised)]
  by_cases hb : ((getTxChainStart T).nonce : Int) = (getAccount s a).finalised ∨
      ((getTxChainStart T).nonce : Int) = (getAccount s a).finalised + 1
  · rw [if_pos hb]
    by_cases hbi : ((getTxChainStart T).nonce : Int) = (getAccount s a).finalised + 1
    · rw [if_pos hbi]
      have hflds := fun x => executeTransfer_fields s (getTxChainStart T) x
      have hbal := fun x => executeTransfer_balance s (getTxChainStart T) x
      by_cases hinc : n ≥ (getAccount (setAccount (executeTransfer s (getTxChainStart T)) a
          { getAccount (executeTransfer s (getTxChainStart T)) a with
            finalised := (n : Int) }) a).nonce
      · rw [if_pos hinc]
        simp only [getAccount_setAccount, if_pos] at hinc
        rw [(hflds a).1] at hinc
        refine ⟨?_, ?_, ?_, ?_, ?_, ?_⟩
        · rw [if_pos hb]
          simp
        · rw [if_pos ⟨hb, hinc⟩]
          simp
        · rw [if_pos ⟨hb, hinc⟩]
          simp
        · intro x
          by_cases hx : x = a
          · subst hx
            simp [hbal x, hbi]
          · simp [hx, hbal x, hbi]
        · exact ⟨fun _ => ⟨hb, hinc⟩, fun _ => rfl⟩
        · intro x hx
          simp [hx, (hflds x).1, (hflds x).2.1, (hflds x).2.2]
      · rw [if_neg hinc]
        simp only [getAccount_setAccount, if_pos] at hinc
        rw [(hflds a).1] at hinc
        refine ⟨?_, ?_, ?_, ?_, ?_, ?_⟩
        · rw [if_pos hb]
          simp
        · rw [if_neg (fun hcon => hinc hcon.2)]
          simp [(hflds a).1]
        · rw [if_neg (fun hcon => hinc hcon.2)]
          simp [(hflds a).2.1]
        · intro x
          by_cases hx : x = a
          · subst hx
            simp [hbal x, hbi]
          · simp [hx, hbal x, hbi]
        · constructor
          · intro h
            cases h
          · intro hcon
            exact absurd hcon.2 hinc
        · intro x hx
          simp [hx, (hflds x).1, (hflds x).2.1, (hflds x).2.2]
    · rw [if_neg hbi]
      by_cases hinc : n ≥ (getAccount (setAccount s a
          { getAccount s a with finalised := (n : Int) }) a).nonce
      · rw [if_pos hinc]
        simp only [getAccount_setAccount, if_pos] at hinc
        refine ⟨?_, ?_, ?_, ?_, ?_, ?_⟩
        · rw [if_pos hb]
          simp
        · rw [if_pos ⟨hb, hinc⟩]
          simp
        · rw [if_pos ⟨hb, hinc⟩]
          simp
        · intro x
          by_cases hx : x = a
          · subst hx
            simp [hbi]
          · simp [hx, hbi]
        · exact ⟨fun _ => ⟨hb, hinc⟩, fun _ => rfl⟩
        · intro x hx
          simp [hx]
      · rw [if_neg hinc]
        simp only [getAccount_setAccount, if_pos] at hinc
        refine ⟨?_, ?_, ?_, ?_, ?_, ?_⟩
        · rw [if_pos hb]
          simp
        · rw [if_neg (fun hcon => hinc hcon.2)]
          simp
        · rw [if_neg (fun hcon => hinc hcon.2)]
          simp
        · intro x
          by_cases hx : x = a
          · subst hx
            simp [hbi]
          · simp [hx, hbi]
        · constructor
          · intro h
            cases h
          · intro hcon
            exact absurd hcon.2 hinc
        · intro x hx
          simp [hx]
  · rw [if_neg hb]
    have hbi : ¬(((getTxChainStart T).nonce : Int) = (getAccount s a).finalised + 1) :=
      fun hcon => hb (Or.inr hcon)
    refine ⟨?_, ?_, ?_, ?_, ?_, ?_⟩
    · rw [if_neg hb]
    · rw [if_neg (fun hcon => hb hcon.1)]
    · rw [if_neg (fun hcon => hb hcon.1)]
    · intro x
      simp [hbi]
    · constructor
      · intro h
        cases h
      · intro hcon
        exact absurd hcon.1 hb
    · intro x _
      exact ⟨rfl, rfl, rfl⟩

/-
Claim theorems.
-/

/-- C5: for every account and every sequence of onTransaction and onVote
calls starting from the initial state (genesis accounts and defaults have
nonce 0 and finalised -1), the account nonce never decreases, the
finalised mark never decreases, and finalised < nonce holds after every
prefix of operations.  The state after `ops` is an arbitrary reachable
state and `extra` an arbitrary continuation, so the monotonicity
statements cover every consecutive pair of reachable states. -/
theorem claim_C5 (self : Nat) (vset : List Nat) (fq nq : Nat)
    (genesis : List (Nat × Int)) (ops extra : List Op) (a : Nat) :
    (getAccount (applyOps (initState self vset fq nq genesis) ops) a).finalised <
      ((getAccount (applyOps (initState self vset fq nq genesis) ops) a).nonce : Int) ∧
    (getAccount (applyOps (initState self vset fq nq genesis) ops) a).nonce ≤
      (getAccount (applyOps (applyOps (initState self vset fq nq genesis) ops) extra) a).nonce ∧
    (getAccount (applyOps (initState self vset fq nq genesis) ops) a).finalised ≤
      (getAccount (applyOps (applyOps (initState self vset fq nq genesis) ops) extra) a).finalised := by
  have hinit : ∀ x, (getAccount (initState self vset fq nq genesis) x).finalised <
      ((getAccount (initState self vset fq nq genesis) x).nonce : Int) := by
    intro x
    unfold initState getAccount
    dsimp only
    split <;> norm_num [defaultAccount]
  have h1 := applyOps_evolve ops (initState self vset fq nq genesis)
  have h2 := applyOps_evolve extra (applyOps (initState self vset fq nq genesis) ops)
  exact ⟨h1.2.2.2.2.2.2.1 hinit a, h2.2.2.2.2.1 a, h2.2.2.2.2.2.1 a⟩

/-- C1 amended: when the stored votes at slot (a, n) give a maximum
per-payload distinct-validator quorum q of at least the finality quorum
for a non-bot payload T, n is above account.finalised, and no votes are
stored above n (so re-entry is inert), one certificate-processor pass
behaves as follows, with orig the chain start of T: the pass raises no
failure; if orig.nonce = finalised + 1 the transfer of orig is applied,
and if orig.nonce = finalised it is not; in both of these cases
finalised becomes n; for any other orig.nonce the balances and finalised
are unchanged.  The nonce ends at n + 1 unless it was already beyond n
(then it is unchanged), except that with an unmatched orig.nonce it
advances only by the notarisation rule (n equal to the current nonce
while pending).  Contrary to the original claim, pending is cleared only
when n is at least the account nonce; when n is below the current
account nonce (a late finality certificate) pending keeps its old value. -/
theorem claim_C1_amended (fuel : Nat) (s : VState) (a n q : Nat) (T : Tx)
    (hmax : getMaxQuorumCert (s.voteStore a n) = (q, some T))
    (hfq : s.finalityQuorum ≤ q)
    (hfin : (getAccount s a).finalised < (n : Int))
    (hempty : ∀ m, n < m → s.voteStore a m = [])
    (hnq1 : 1 ≤ s.notarisationQuorum)
    (hnqfq : s.notarisationQuorum ≤ s.finalityQuorum) :
    (processCertificate (fuel + 1) s a n).err = none ∧
    (processCertificate (fuel + 1) s a n).emitted = [] ∧
    (getAccount (processCertificate (fuel + 1) s a n).state a).finalised =
      (if ((getTxChainStart T).nonce : Int) = (getAccount s a).finalised ∨
          ((getTxChainStart T).nonce : Int) = (getAccount s a).finalised + 1
       then (n : Int) else (getAccount s a).finalised) ∧
    (getAccount (processCertificate (fuel + 1) s a n).state a).nonce =
      (if ((getTxChainStart T).nonce : Int) = (getAccount s a).finalised ∨
          ((getTxChainStart T).nonce : Int) = (getAccount s a).finalised + 1
       then (if n < (getAccount s a).nonce then (getAccount s a).nonce else n + 1)
       else (if n = (getAccount s a).nonce ∧ (getAccount s a).pending = true
             then n + 1 else (getAccount s a).nonce)) ∧
    (getAccount (processCertificate (fuel + 1) s a n).state a).pending =
      (if ((getTxChainStart T).nonce : Int) = (getAccount s a).finalised ∨
          ((getTxChainStart T).nonce : Int) = (getAccount s a).finalised + 1
       then (if n < (getAccount s a).nonce then (getAccount s a).pending else false)
       else (if n = (getAccount s a).nonce ∧ (getAccount s a).pending = true
             then false else (getAccount s a).pending)) ∧
    (∀ x, (getAccount (processCertificate (fuel + 1) s a n).state x).balance =
      (getAccount s x).balance
        - (if ((getTxChainStart T).nonce : Int) = (getAccount s a).finalised + 1 ∧
              x = (getTxChainStart T).sender then ((getTxChainStart T).value : Int) else 0)
        + (if ((getTxChainStart T).nonce : Int) = (getAccount s a).finalised + 1 ∧
              x = (getTxChainStart T).recipient then ((getTxChainStart T).value : Int) else 0)) := by
  have hq_nq : s.notarisationQuorum ≤ (getMaxQuorumCert (s.voteStore a n)).1 := by
    rw [hmax]
    exact le_trans hnqfq hfq
  rcases hp : phase1 s a n with ⟨s1, e⟩ | ⟨s2, bot⟩ | ⟨s1, bot⟩ | s1 | _
  · obtain ⟨_, _, hlt⟩ := phase1_err_inv hp
    omega
  · obtain ⟨hcond, _, _⟩ := phase1_castBot_inv hp
    have hlt := hcond.2.1
    omega
  · exact absurd hp (fun hh => phase1_botDropped_inv hh)
  · -- notarisation advance fires, then the finality branch runs on the
    -- advanced account, then inert re-entry at n + 1
    obtain ⟨hn, hpend, _, hs1⟩ := phase1_advanced_inv hp
    subst hs1
    have ha1 : getAccount (setAccount s a
        { getAccount s a with nonce := n + 1, pending := false }) a =
        { getAccount s a with nonce := n + 1, pending := false } := by
      simp
    have hchar := finalityPhase_char (setAccount s a
        { getAccount s a with nonce := n + 1, pending := false }) a n q T hfq
      (by rw [ha1]; exact hfin)
    rw [ha1] at hchar
    dsimp only at hchar
    have hff := finalityPhase_facts (setAccount s a
        { getAccount s a with nonce := n + 1, pending := false }) a n q (some T)
    have hfr2 : (finalityPhase (setAccount s a
        { getAccount s a with nonce := n + 1, pending := false }) a n q (some T)).2 = false := by
      rcases hfr : (finalityPhase (setAccount s a
          { getAccount s a with nonce := n + 1, pending := false }) a n q (some T)).2 with _ | _
      · rfl
      · have := hchar.2.2.2.2.1.mp hfr
        omega
    have hfrn : (getAccount (finalityPhase (setAccount s a
        { getAccount s a with nonce := n + 1, pending := false }) a n q (some T)).1 a).nonce
        = n + 1 := by
      rw [hchar.2.1]
      rw [if_neg (by omega)]
    have hrun : processCertificate (fuel + 1) s a n =
        ⟨(finalityPhase (setAccount s a
          { getAccount s a with nonce := n + 1, pending := false }) a n q (some T)).1,
          [], none⟩ := by
      simp only [processCertificate]
      rw [hp]
      dsimp only
      rw [hmax]
      dsimp only
      rw [hfrn]
      rw [pc_empty fuel _ a (n + 1)
        (by rw [hff.2.1]; exact hempty (n + 1) (Nat.lt_succ_self n))
        (by rw [hff.1.2.2.2.1]; exact hnq1)
        (by rw [hff.1.2.2.1]; exact le_trans hnq1 hnqfq)]
    rw [hrun]
    refine ⟨rfl, rfl, ?_, ?_, ?_, ?_⟩
    · exact hchar.1
    · rw [hfrn]
      by_cases hbo : ((getTxChainStart T).nonce : Int) = (getAccount s a).finalised ∨
          ((getTxChainStart T).nonce : Int) = (getAccount s a).finalised + 1
      · rw [if_pos hbo, if_neg (by omega)]
      · rw [if_neg hbo, if_pos ⟨hn, hpend⟩]
    · have hfrp : (getAccount (finalityPhase (setAccount s a
          { getAccount s a with nonce := n + 1, pending := false }) a n q (some T)).1 a).pending
          = false := by
        rw [hchar.2.2.1]
        rw [if_neg (by omega)]
      rw [hfrp]
      by_cases hbo : ((getTxChainStart T).nonce : Int) = (getAccount s a).finalised ∨
          ((getTxChainStart T).nonce : Int) = (getAccount s a).finalised + 1
      · rw [if_pos hbo, if_neg (by omega)]
      · rw [if_neg hbo, if_pos ⟨hn, hpend⟩]
    · intro x
      have hb1 : ∀ y, (getAccount (setAccount s a
          { getAccount s a with nonce := n + 1, pending := false }) y).balance =
          (getAccount s y).balance := by
        intro y
        by_cases hy : y = a <;> simp [hy]
      rw [hchar.2.2.2.1 x, hb1 x]
  · -- idle current-nonce branch; only the finality branch acts
    have hnadv := phase1_idle_adv_inv hp hq_nq
    have hchar := finalityPhase_char s a n q T hfq hfin
    have hff := finalityPhase_facts s a n q (some T)
    by_cases hb2 : (((getTxChainStart T).nonce : Int) = (getAccount s a).finalised ∨
        ((getTxChainStart T).nonce : Int) = (getAccount s a).finalised + 1) ∧
        (getAccount s a).nonce ≤ n
    · have hfr2 : (finalityPhase s a n q (some T)).2 = true := hchar.2.2.2.2.1.mpr hb2
      have hfrn : (getAccount (finalityPhase s a n q (some T)).1 a).nonce = n + 1 := by
        rw [hchar.2.1, if_pos hb2]
      have hrun : processCertificate (fuel + 1) s a n =
          ⟨(finalityPhase s a n q (some T)).1, [], none⟩ := by
        simp only [processCertificate]
        rw [hp]
        dsimp only
        rw [hmax]
        dsimp only
        rw [if_pos hfr2]
        rw [hfrn]
        rw [pc_empty fuel _ a (n + 1)
          (by rw [hff.2.1]; exact hempty (n + 1) (Nat.lt_succ_self n))
          (by rw [hff.1.2.2.2.1]; exact hnq1)
          (by rw [hff.1.2.2.1]; exact le_trans hnq1 hnqfq)]
      rw [hrun]
      refine ⟨rfl, rfl, ?_, ?_, ?_, ?_⟩
      · exact hchar.1
      · rw [hfrn, if_pos hb2.1, if_neg (by omega)]
      · rw [hchar.2.2.1, if_pos hb2, if_pos hb2.1, if_neg (by omega)]
      · intro x
        exact hchar.2.2.2.1 x
    · have hfr2 : (finalityPhase s a n q (some T)).2 = false := by
        rcases hfr : (finalityPhase s a n q (some T)).2 with _ | _
        · rfl
        · exact absurd (hchar.2.2.2.2.1.mp hfr) hb2
      have hrun : processCertificate (fuel + 1) s a n =
          ⟨(finalityPhase s a n q (some T)).1, [], none⟩ := by
        simp only [processCertificate]
        rw [hp]
        dsimp only
        rw [hmax]
        dsimp only
        rw [if_neg (by rw [hfr2]; simp)]
      rw [hrun]
      refine ⟨rfl, rfl, ?_, ?_, ?_, ?_⟩
      · exact hchar.1
      · rw [hchar.2.1, if_neg hb2]
        by_cases hbo : ((getTxChainStart T).nonce : Int) = (getAccount s a).finalised ∨
            ((getTxChainStart T).nonce : Int) = (getAccount s a).finalised + 1
        · rw [if_pos hbo, if_pos (by
            rcases Nat.lt_or_ge n (getAccount s a).nonce with h | h
            · exact h
            · exact absurd ⟨hbo, h⟩ hb2)]
        · rw [if_neg hbo, if_neg (fun hcon => hnadv hcon)]
      · rw [hchar.2.2.1, if_neg hb2]
        by_cases hbo : ((getTxChainStart T).nonce : Int) = (getAccount s a).finalised ∨
            ((getTxChainStart T).nonce : Int) = (getAccount s a).finalised + 1
        · rw [if_pos hbo, if_pos (by
            rcases Nat.lt_or_ge n (getAccount s a).nonce with h | h
            · exact h
            · exact absurd ⟨hbo, h⟩ hb2)]
        · rw [if_neg hbo, if_neg (fun hcon => hnadv hcon)]
      · intro x
        exact hchar.2.2.2.1 x

/-- C1 counterexample: at cexC1State every condition of the claim holds
at nonce 3 (the maximum per-payload distinct-validator quorum is 5, the
finality quorum, for a non-bot payload; 3 exceeds finalised = 1), and
processing finalises nonce 3 (the claim's main effects fire: the chain
start has nonce 2 = finalised + 1, so the transfer is applied and
finalised becomes 3) — but the claim's final clause fails: finalised
advanced to 3 while account.pending stays true, because the code clears
pending only when the finalised nonce is at least the current account
nonce (here 5). -/
theorem claim_C1_counterexample :
    (getMaxQuorumCert (cexC1State.voteStore 10 3)).1 = 5 ∧
    (getMaxQuorumCert (cexC1State.voteStore 10 3)).2 =
      some (Tx.mk 10 RECOVERY_CONTRACT 0 3 true (some (Tx.mk 10 11 7 2 true none))) ∧
    cexC1State.finalityQuorum = 5 ∧
    (getAccount cexC1State 10).finalised = 1 ∧
    (getAccount (processCertificate 3 cexC1State 10 3).state 10).finalised = 3 ∧
    (getAccount (processCertificate 3 cexC1State 10 3).state 10).balance = 43 ∧
    (getAccount (processCertificate 3 cexC1State 10 3).state 11).balance = 7 ∧
    (getAccount (processCertificate 3 cexC1State 10 3).state 10).pending = true := by
  decide

/-- C1 witness: the amended theorem applied at witC1State, nonce 0, with
the five-vote finality certificate for the payment of 100; the
hypotheses are discharged by computation and the conclusions evaluate to
finalised 0, nonce 1, pending cleared, and the transferred balances. -/
theorem claim_C1_witness :
    (getAccount (processCertificate (0 + 1) witC1State 10 0).state 10).finalised = 0 ∧
    (getAccount (processCertificate (0 + 1) witC1State 10 0).state 10).nonce = 1 ∧
    (getAccount (processCertificate (0 + 1) witC1State 10 0).state 10).pending = false ∧
    (getAccount (processCertificate (0 + 1) witC1State 10 0).state 10).balance = 900 ∧
    (getAccount (processCertificate (0 + 1) witC1State 10 0).state 11).balance = 100 := by
  have h := claim_C1_amended 0 witC1State 10 0 5 (Tx.mk 10 11 100 0 true none)
    (by decide) (by decide) (by decide)
    (fun m hm => if_neg (by omega))
    (by decide) (by decide)
  obtain ⟨_, _, h3, h4, h5, h6⟩ := h
  refine ⟨?_, ?_, ?_, ?_, ?_⟩
  · rw [h3]
    decide
  · rw [h4]
    decide
  · rw [h5]
    decide
  · rw [h6 10]
    decide
  · rw [h6 11]
    decide

/-- C6 counterexample: the claim asserts that the balance stays
non-negative under every sequence of accepted onTransaction and onVote
inputs.  It is false: starting from the initial state with every balance
zero, delivering five correctly signed votes from distinct validators of
the set (a finality quorum, n = 6, f = 1) for a payment of 100 from
account 10 drives account 10 to balance -100; every one of the five
onVote calls is accepted (no error).  The validator checks the balance
only in onTransaction; finality-time execution subtracts
unconditionally. -/
theorem claim_C6_counterexample :
    (applyOpsChecked (initState 6 [1, 2, 3, 4, 5, 6] 5 3 [])
        ([1, 2, 3, 4, 5].map (fun i =>
          Op.vote 2 ⟨i, 10, 0, some (Tx.mk 10 11 100 0 true none), true⟩))).2 = true ∧
    (getAccount (applyOpsChecked (initState 6 [1, 2, 3, 4, 5, 6] 5 3 [])
        ([1, 2, 3, 4, 5].map (fun i =>
          Op.vote 2 ⟨i, 10, 0, some (Tx.mk 10 11 100 0 true none), true⟩))).1 10).balance
      = -100 := by
  constructor
  · rfl
  · rfl

/-- C6 amended: the validator checks the balance only at onTransaction
acceptance time; executeTransfer applies the debit unconditionally at
finality, so non-negativity of balances is preserved by a transfer
exactly under the assumption that the transferred value is at most the
sender balance at execution time (and vote-driven finalisation without
that property can make a balance negative, see the counterexample). -/
theorem claim_C6_amended (s : VState) (t : Tx)
    (hpos : ∀ x, 0 ≤ (getAccount s x).balance)
    (hcov : (t.value : Int) ≤ (getAccount s t.sender).balance) :
    ∀ x, 0 ≤ (getAccount (executeTransfer s t) x).balance := by
  intro x
  unfold executeTransfer
  simp only [getAccount_setAccount]
  by_cases h1 : x = t.recipient
  · rw [if_pos h1]
    by_cases h2 : t.recipient = t.sender
    · rw [if_pos h2]
      dsimp only
      have := hpos t.sender
      omega
    · rw [if_neg h2]
      dsimp only
      have := hpos t.recipient
      have hv : (0 : Int) ≤ (t.value : Int) := Int.ofNat_nonneg _
      omega
  · rw [if_neg h1]
    by_cases h2 : x = t.sender
    · rw [if_pos h2]
      dsimp only
      omega
    · rw [if_neg h2]
      exact hpos x

/-- C6 witness: the amended theorem applied at a concrete state where
every account holds 7 and a transfer of value 5 is executed. -/
theorem claim_C6_witness :
    0 ≤ (getAccount (executeTransfer
      ⟨6, [1, 2, 3, 4, 5, 6], 5, 3,
        fun _ => ⟨7, 0, false, -1⟩, fun _ _ => []⟩
      (Tx.mk 10 11 5 0 true none)) 10).balance ∧
    0 ≤ (getAccount (executeTransfer
      ⟨6, [1, 2, 3, 4, 5, 6], 5, 3,
        fun _ => ⟨7, 0, false, -1⟩, fun _ _ => []⟩
      (Tx.mk 10 11 5 0 true none)) 11).balance :=
  ⟨claim_C6_amended _ _ (fun _ => by norm_num [getAccount])
      (by norm_num [getAccount, Tx.value, Tx.sender]) 10,
    claim_C6_amended _ _ (fun _ => by norm_num [getAccount])
      (by norm_num [getAccount, Tx.value, Tx.sender]) 11⟩

/-- C9: the chain-start resolver getTxChainStart enforces no recursion
depth cap at all: a recovery transaction nested twenty layers deep (far
beyond the depth cap of 8 suggested by the specification) is fully
unwrapped to the innermost payment instead of being rejected as an
invalid recovery.  In the TypeScript source the recursion is unbounded,
so pathological input exhausts the call stack; the specification demands
a cap with rejection, which the code does not implement. -/
theorem claim_C9_no_depth_cap :
    getTxChainStart (nestRecovery 20 (Tx.mk 10 11 100 0 true none))
      = Tx.mk 10 11 100 0 true none := by
  rfl

/-- C2 counterexample: the claim requires a total distinct-validator
count of at least n - f before a bot vote is cast.  At cexC2State the
slot of account 10 at nonce 0 holds four votes from only three distinct
validators; delivering a bot vote from validator 2 (already present with
a payment vote) brings the raw list length to 5 = n - f while the
distinct-validator count is only 3 < 5 — and the validator nevertheless
casts and broadcasts its own bot vote, because the code compares the raw
stored-vote list length (votes.length), not the distinct-validator
count, against the finality quorum. -/
theorem claim_C2_counterexample :
    (applyOpsChecked (initState 6 [1, 2, 3, 4, 5, 6] 5 3 []) cexC2Ops).2 = true ∧
    verifyVote ⟨2, 10, 0, none, true⟩ cexC2State.validatorSet = true ∧
    totalDistinctValidators (cexC2State.voteStore 10 0 ++ [⟨2, 10, 0, none, true⟩]) = 3 ∧
    cexC2State.finalityQuorum = 5 ∧
    (onVote 3 cexC2State ⟨2, 10, 0, none, true⟩).emitted = [⟨6, 10, 0, none, true⟩] := by
  refine ⟨rfl, rfl, rfl, rfl, rfl⟩

/-- C2 (corrected): a run of the certificate processor at slot (a, n)
emits a bot vote of this validator at nonce n exactly when the source's
guard botCastCondition holds before the run: n is the account's current
nonce, the maximum per-payload distinct-validator quorum is below the
notarisation quorum, the RAW LENGTH of the stored vote list (not the
distinct-validator count claimed by the spec) reaches the finality
quorum, and no own bot vote is stored yet; and under that condition the
bot vote is also appended to the local store.  The hypothesis states
that this validator belongs to its own validator set, so that its bot
vote passes verification. -/
theorem claim_C2_amended (fuel : Nat) (s : VState) (a n : Nat)
    (hself : s.validatorSet.contains s.self = true) :
    ((∃ v ∈ (processCertificate (fuel + 1) s a n).emitted,
        v.validator = s.self ∧ v.tx = none ∧ v.nonce = n) ↔ botCastCondition s a n) ∧
    (botCastCondition s a n →
      (⟨s.self, a, n, none, true⟩ : Vote) ∈
        (processCertificate (fuel + 1) s a n).state.voteStore a n) := by
  have hver : verifyVote ⟨s.self, a, n, none, true⟩ s.validatorSet = true := by
    unfold verifyVote
    dsimp only
    rw [hself]
    rfl
  by_cases hcond : botCastCondition s a n
  · have hkey : (⟨s.self, a, n, none, true⟩ : Vote) ∈
        (processCertificate (fuel + 1) s a n).emitted ∧
        (⟨s.self, a, n, none, true⟩ : Vote) ∈
        (processCertificate (fuel + 1) s a n).state.voteStore a n := by
      simp only [processCertificate]
      rcases hp : phase1 s a n with ⟨s1, e⟩ | ⟨s2, bot⟩ | ⟨s1, bot⟩ | s1 | _
      · obtain ⟨_, hvf, _⟩ := phase1_err_inv hp
        rw [hver] at hvf
        cases hvf
      · obtain ⟨_, hbot, hs2⟩ := phase1_castBot_inv hp
        subst hbot
        have hself2 : s2.validatorSet.contains s2.self = true := by
          rw [hs2]
          exact hself
        have hr := pc_err_none fuel s2 a n hself2
        dsimp only
        rw [hr]
        dsimp only
        have hff := finalityPhase_facts (processCertificate fuel s2 a n).state a n
          (getMaxQuorumCert (s.voteStore a n)).1 (getMaxQuorumCert (s.voteStore a n)).2
        have hsmem : (⟨s.self, a, n, none, true⟩ : Vote) ∈ s2.voteStore a n := by
          rw [hs2]
          simp [setVotes]
        obtain ⟨l1, e1, _⟩ := (pc_store fuel s2 a n).1 a n
        have hmem_r : (⟨s.self, a, n, none, true⟩ : Vote) ∈
            (processCertificate fuel s2 a n).state.voteStore a n := by
          rw [e1]
          exact List.mem_append_left _ hsmem
        have hmem_fr : (⟨s.self, a, n, none, true⟩ : Vote) ∈
            (finalityPhase (processCertificate fuel s2 a n).state a n
              (getMaxQuorumCert (s.voteStore a n)).1
              (getMaxQuorumCert (s.voteStore a n)).2).1.voteStore a n := by
          rw [hff.2.1]
          exact hmem_r
        rcases hfr : (finalityPhase (processCertificate fuel s2 a n).state a n
            (getMaxQuorumCert (s.voteStore a n)).1
            (getMaxQuorumCert (s.voteStore a n)).2).2 with _ | _
        · rw [if_neg (by simp)]
          exact ⟨List.mem_append_right _ (List.mem_singleton_self _), hmem_fr⟩
        · rw [if_pos rfl]
          dsimp only
          obtain ⟨l2, e2, _⟩ := (pc_store fuel (finalityPhase (processCertificate fuel s2 a n).state a n
              (getMaxQuorumCert (s.voteStore a n)).1
              (getMaxQuorumCert (s.voteStore a n)).2).1 a
            (getAccount (finalityPhase (processCertificate fuel s2 a n).state a n
              (getMaxQuorumCert (s.voteStore a n)).1
              (getMaxQuorumCert (s.voteStore a n)).2).1 a).nonce).1 a n

          refine ⟨List.mem_append_left _ (List.mem_append_right _ (List.mem_singleton_self _)), ?_⟩
          rw [e2]
          exact List.mem_append_left _ hmem_fr
      · exact absurd hp (fun hh => phase1_botDropped_inv hh)
      · obtain ⟨_, _, hq, _⟩ := phase1_advanced_inv hp
        exact absurd hq (Nat.not_le.mpr hcond.2.1)
      · exact absurd hcond (phase1_idle_inv hp)
    exact ⟨⟨fun _ => hcond, fun _ => ⟨⟨s.self, a, n, none, true⟩, hkey.1, rfl, rfl, rfl⟩⟩,
      fun _ => hkey.2⟩
  · have hnc : ∀ s2 bot, phase1 s a n ≠ .castBot s2 bot := by
      intro s2 bot hp
      exact hcond (phase1_castBot_inv hp).1
    refine ⟨⟨?_, fun hc => absurd hc hcond⟩, fun hc => absurd hc hcond⟩
    rintro ⟨v, hv, _, _, hvn⟩
    have := pc_emit_gt (fuel + 1) s a n hnc v hv
    omega

/-- C2 witness: the amended theorem applied at witC2State, whose
five-vote slot at nonce 0 satisfies the cast condition, yields the
emitted own bot vote and its presence in the local store. -/
theorem claim_C2_witness :
    witC2State.validatorSet.contains witC2State.self = true ∧
    botCastCondition witC2State 10 0 ∧
    (∃ v ∈ (processCertificate (2 + 1) witC2State 10 0).emitted,
      v.validator = witC2State.self ∧ v.tx = none ∧ v.nonce = 0) ∧
    (⟨witC2State.self, 10, 0, none, true⟩ : Vote) ∈
      (processCertificate (2 + 1) witC2State 10 0).state.voteStore 10 0 := by
  have hc : botCastCondition witC2State 10 0 := ⟨rfl, by decide, by decide, rfl⟩
  have h := claim_C2_amended 2 witC2State 10 0 (by decide)
  exact ⟨by decide, hc, h.1.mpr hc, h.2 hc⟩

theorem finalityPhase_none (s : VState) (a n q : Nat) :
    finalityPhase s a n q none = (s, false) := rfl

/-- C3 (confirmed): the certificate processor re-enters at the advanced
nonce.  When the account sits at nonce n with a pending vote, the slot
at n holds a notarisation quorum whose maximum payload is bot, and the
slot at n + 1 already holds a finality quorum q for payload T whose
chain-start nonce matches the finalised mark (or its successor), then a
single processor pass at n — triggered without any further vote delivery
for n + 1 — first advances the nonce by the notarisation rule and then
lets the stored votes at n + 1 take effect through re-entry: the pass
ends with no error, nothing emitted, the account at nonce n + 2,
finalised mark n + 1, and pending cleared. -/
theorem claim_C3 (fuel : Nat) (s : VState) (a n q : Nat) (T : Tx)
    (hn : n = (getAccount s a).nonce)
    (hpend : (getAccount s a).pending = true)
    (hq_nq : s.notarisationQuorum ≤ (getMaxQuorumCert (s.voteStore a n)).1)
    (hmaxk : (getMaxQuorumCert (s.voteStore a n)).2 = none)
    (hmax1 : getMaxQuorumCert (s.voteStore a (n + 1)) = (q, some T))
    (hfq : s.finalityQuorum ≤ q)
    (hfin : (getAccount s a).finalised < ((n + 1 : Nat) : Int))
    (hbo : ((getTxChainStart T).nonce : Int) = (getAccount s a).finalised ∨
      ((getTxChainStart T).nonce : Int) = (getAccount s a).finalised + 1)
    (hempty : ∀ m, n + 1 < m → s.voteStore a m = [])
    (hnq1 : 1 ≤ s.notarisationQuorum)
    (hnqfq : s.notarisationQuorum ≤ s.finalityQuorum) :
    (processCertificate (fuel + 1 + 1) s a n).err = none ∧
    (processCertificate (fuel + 1 + 1) s a n).emitted = [] ∧
    (getAccount (processCertificate (fuel + 1 + 1) s a n).state a).nonce = n + 2 ∧
    (getAccount (processCertificate (fuel + 1 + 1) s a n).state a).finalised =
      ((n + 1 : Nat) : Int) ∧
    (getAccount (processCertificate (fuel + 1 + 1) s a n).state a).pending = false := by
  have hs1n : (getAccount (setAccount s a
      { getAccount s a with nonce := n + 1, pending := false }) a).nonce = n + 1 := by simp
  have hp : phase1 s a n = .advanced (setAccount s a
      { getAccount s a with nonce := n + 1, pending := false }) := by
    unfold phase1
    dsimp only
    rw [if_pos hn, if_neg (Nat.not_lt.mpr hq_nq), if_pos hpend]
  have hp2 : phase1 (setAccount s a
      { getAccount s a with nonce := n + 1, pending := false }) a (n + 1) = .idle := by
    unfold phase1
    dsimp only
    rw [if_pos hs1n.symm]
    rw [if_neg (by
      show ¬((getMaxQuorumCert (s.voteStore a (n + 1))).1 < s.notarisationQuorum)
      rw [hmax1]
      exact Nat.not_lt.mpr (le_trans hnqfq hfq))]
    rw [if_neg (by simp)]
  have hboS1 : ((getTxChainStart T).nonce : Int) =
      (getAccount (setAccount s a
        { getAccount s a with nonce := n + 1, pending := false }) a).finalised ∨
      ((getTxChainStart T).nonce : Int) =
      (getAccount (setAccount s a
        { getAccount s a with nonce := n + 1, pending := false }) a).finalised + 1 := by
    simpa using hbo
  have hchar := finalityPhase_char (setAccount s a
      { getAccount s a with nonce := n + 1, pending := false }) a (n + 1) q T hfq
    (by simpa using hfin)
  have hfr2 : (finalityPhase (setAccount s a
      { getAccount s a with nonce := n + 1, pending := false }) a (n + 1) q (some T)).2
      = true :=
    hchar.2.2.2.2.1.mpr ⟨hboS1, by simp⟩
  have hfrn : (getAccount (finalityPhase (setAccount s a
      { getAccount s a with nonce := n + 1, pending := false }) a (n + 1) q
      (some T)).1 a).nonce = n + 2 := by
    rw [hchar.2.1, if_pos ⟨hboS1, by simp⟩]
  have hfrf : (getAccount (finalityPhase (setAccount s a
      { getAccount s a with nonce := n + 1, pending := false }) a (n + 1) q
      (some T)).1 a).finalised = ((n + 1 : Nat) : Int) := by
    rw [hchar.1, if_pos hboS1]
  have hfrp : (getAccount (finalityPhase (setAccount s a
      { getAccount s a with nonce := n + 1, pending := false }) a (n + 1) q
      (some T)).1 a).pending = false := by
    rw [hchar.2.2.1, if_pos ⟨hboS1, by simp⟩]
  have hff := finalityPhase_facts (setAccount s a
      { getAccount s a with nonce := n + 1, pending := false }) a (n + 1) q (some T)
  have hrun : processCertificate (fuel + 1 + 1) s a n =
      ⟨(finalityPhase (setAccount s a
        { getAccount s a with nonce := n + 1, pending := false }) a (n + 1) q
        (some T)).1, [], none⟩ := by
    simp only [processCertificate]
    rw [hp]
    dsimp only
    rw [hmaxk, finalityPhase_none]
    dsimp only
    rw [hs1n]
    rw [hp2]
    dsimp only
    rw [voteStore_setAccount, hmax1]
    dsimp only
    rw [if_pos hfr2, hfrn]
    rw [pc_empty fuel _ a (n + 2)
      (by rw [hff.2.1, voteStore_setAccount]; exact hempty (n + 2) (by omega))
      (by rw [hff.1.2.2.2.1]; exact hnq1)
      (by rw [hff.1.2.2.1]; exact le_trans hnq1 hnqfq)]
  rw [hrun]
  exact ⟨rfl, rfl, hfrn, hfrf, hfrp⟩

/-- C3 witness: the re-entry theorem applied at witC3State: one pass at
nonce 1 advances by the bot notarisation and then, re-entering at nonce
2, finalises the stored recovery certificate — the account ends at nonce
3 with finalised mark 2 and pending cleared, with no further vote
delivered for nonce 2. -/
theorem claim_C3_witness :
    (processCertificate (0 + 1 + 1) witC3State 10 1).err = none ∧
    (processCertificate (0 + 1 + 1) witC3State 10 1).emitted = [] ∧
    (getAccount (processCertificate (0 + 1 + 1) witC3State 10 1).state 10).nonce = 1 + 2 ∧
    (getAccount (processCertificate (0 + 1 + 1) witC3State 10 1).state 10).finalised =
      ((1 + 1 : Nat) : Int) ∧
    (getAccount (processCertificate (0 + 1 + 1) witC3State 10 1).state 10).pending = false :=
  claim_C3 0 witC3State 10 1 5
    (Tx.mk 10 RECOVERY_CONTRACT 0 2 true (some (Tx.mk 10 11 100 0 true none)))
    (by decide) (by decide) (by decide) (by decide) (by decide) (by decide) (by decide)
    (by decide)
    (fun m hm => (if_neg (by omega)).trans (if_neg (by omega)))
    (by decide) (by decide)

theorem validateRecovery_none_iff (s : VState) (tx : Tx) :
    validateRecovery s tx = none ↔
    ∃ tipTx, tx.dataTx = some tipTx ∧ tipTx.hasSig = true ∧ tipTx.sender = tx.sender ∧
      s.notarisationQuorum ≤ countQuorum (s.voteStore tx.sender tipTx.nonce) (some tipTx) ∧
      (∀ k, tipTx.nonce < k → k < tx.nonce →
        s.notarisationQuorum ≤ countQuorum (s.voteStore tx.sender k) none) := by
  unfold validateRecovery
  rcases hd : tx.dataTx with _ | tipTx
  · simp
  · dsimp only
    by_cases h1 : tipTx.hasSig = true ∧ tipTx.sender = tx.sender
    · rw [if_neg (not_not_intro h1)]
      by_cases h2 : countQuorum (s.voteStore tx.sender tipTx.nonce) (some tipTx) <
          s.notarisationQuorum
      · rw [if_pos h2]
        constructor
        · intro h
          cases h
        · rintro ⟨tip', he, _, _, hq, _⟩
          injection he with he
          subst he
          omega
      · rw [if_neg h2]
        by_cases h3 : (List.range' (tipTx.nonce + 1) (tx.nonce - (tipTx.nonce + 1))).any
            (fun k => decide (countQuorum (s.voteStore tx.sender k) none <
              s.notarisationQuorum)) = true
        · rw [if_pos h3]
          constructor
          · intro h
            cases h
          · rintro ⟨tip', he, _, _, _, hall⟩
            injection he with he
            subst he
            obtain ⟨k, hk, hdec⟩ := List.any_eq_true.mp h3
            rw [List.mem_range'_1] at hk
            have hlt := of_decide_eq_true hdec
            have := hall k (by omega) (by omega)
            omega
        · rw [if_neg h3]
          constructor
          · intro _
            refine ⟨tipTx, rfl, h1.1, h1.2, Nat.le_of_not_lt h2, ?_⟩
            intro k hk1 hk2
            by_contra hlt
            exact h3 (List.any_eq_true.mpr ⟨k, List.mem_range'_1.mpr ⟨by omega, by omega⟩,
              decide_eq_true (Nat.lt_of_not_le hlt)⟩)
          · intro _
            rfl
    · rw [if_pos h1]
      constructor
      · intro h
        cases h
      · rintro ⟨tip', he, hs1, hs2, _, _⟩
        injection he with he
        subst he
        exact absurd ⟨hs1, hs2⟩ h1

/-- C4 (confirmed): acceptance of a recovery transaction (recipient is
the recovery contract) implies the recovery-validity conditions, read
from validateRecovery: the data payload decodes to a tip transaction
signed by the same sender, the local store holds a notarisation quorum
of distinct-validator votes for the tip at the tip's nonce, and every
nonce strictly between the tip nonce and the recovery nonce holds a bot
notarisation quorum.  Conversely, whenever these conditions fail, the
call raises an error, returns and broadcasts no self vote, and leaves
the state unchanged. -/
theorem claim_C4 (fuel : Nat) (s : VState) (tx : Tx)
    (hrec : tx.recipient = RECOVERY_CONTRACT) :
    ((onTransaction fuel s tx).err = none →
      ∃ tipTx, tx.dataTx = some tipTx ∧ tipTx.hasSig = true ∧ tipTx.sender = tx.sender ∧
        s.notarisationQuorum ≤ countQuorum (s.voteStore tx.sender tipTx.nonce) (some tipTx) ∧
        (∀ k, tipTx.nonce < k → k < tx.nonce →
          s.notarisationQuorum ≤ countQuorum (s.voteStore tx.sender k) none)) ∧
    ((¬ ∃ tipTx, tx.dataTx = some tipTx ∧ tipTx.hasSig = true ∧ tipTx.sender = tx.sender ∧
        s.notarisationQuorum ≤ countQuorum (s.voteStore tx.sender tipTx.nonce) (some tipTx) ∧
        (∀ k, tipTx.nonce < k → k < tx.nonce →
          s.notarisationQuorum ≤ countQuorum (s.voteStore tx.sender k) none)) →
      (onTransaction fuel s tx).err ≠ none ∧
      (onTransaction fuel s tx).vote = none ∧
      (onTransaction fuel s tx).emitted = [] ∧
      (onTransaction fuel s tx).state = s) := by
  have hmain : ((onTransaction fuel s tx).err = none → validateRecovery s tx = none) ∧
      (validateRecovery s tx ≠ none →
        (onTransaction fuel s tx).err ≠ none ∧ (onTransaction fuel s tx).vote = none ∧
        (onTransaction fuel s tx).emitted = [] ∧ (onTransaction fuel s tx).state = s) := by
    unfold onTransaction
    dsimp only
    split
    · exact ⟨fun h => Option.noConfusion h,
        fun _ => ⟨fun h => Option.noConfusion h, rfl, rfl, rfl⟩⟩
    · split
      · exact ⟨fun h => Option.noConfusion h,
          fun _ => ⟨fun h => Option.noConfusion h, rfl, rfl, rfl⟩⟩
      · split
        · exact ⟨fun h => Option.noConfusion h,
            fun _ => ⟨fun h => Option.noConfusion h, rfl, rfl, rfl⟩⟩
        · rcases hval : validateRecovery s tx with _ | e
          · exact ⟨fun _ => rfl, fun hne => absurd rfl hne⟩
          · exact ⟨fun h => Option.noConfusion h,
              fun _ => ⟨fun h => Option.noConfusion h, rfl, rfl, rfl⟩⟩
  refine ⟨fun herr => (validateRecovery_none_iff s tx).mp (hmain.1 herr), fun hnc => hmain.2 ?_⟩
  intro h
  exact hnc ((validateRecovery_none_iff s tx).mp h)

/-- C4 witness: the theorem applied to a recovery transaction with a
missing tip payload delivered to a validator in its initial state: the
conditions fail, the call raises an error, no self vote is returned,
nothing is broadcast, and the state is unchanged. -/
theorem claim_C4_witness :
    (onTransaction 1 (initState 6 [1, 2, 3, 4, 5, 6] 5 3 [])
      (Tx.mk 10 RECOVERY_CONTRACT 0 0 true none)).err ≠ none ∧
    (onTransaction 1 (initState 6 [1, 2, 3, 4, 5, 6] 5 3 [])
      (Tx.mk 10 RECOVERY_CONTRACT 0 0 true none)).vote = none ∧
    (onTransaction 1 (initState 6 [1, 2, 3, 4, 5, 6] 5 3 [])
      (Tx.mk 10 RECOVERY_CONTRACT 0 0 true none)).emitted = [] ∧
    (onTransaction 1 (initState 6 [1, 2, 3, 4, 5, 6] 5 3 [])
      (Tx.mk 10 RECOVERY_CONTRACT 0 0 true none)).state =
      initState 6 [1, 2, 3, 4, 5, 6] 5 3 [] := by
  have h := claim_C4 1 (initState 6 [1, 2, 3, 4, 5, 6] 5 3 [])
    (Tx.mk 10 RECOVERY_CONTRACT 0 0 true none) (by decide)
  refine h.2 ?_
  rintro ⟨tip, htip, _⟩
  cases htip

theorem onTransaction_split (fuel : Nat) (s : VState) (tx : Tx)
    (hself : s.validatorSet.contains s.self = true) :
    ((onTransaction fuel s tx).err ≠ none →
      (onTransaction fuel s tx).state = s ∧ (onTransaction fuel s tx).vote = none ∧
      (onTransaction fuel s tx).emitted = []) ∧
    ((onTransaction fuel s tx).err = none →
      tx.hasSig = true ∧
      ReplayInv tx.nonce (getAccount (onTransaction fuel s tx).state tx.sender)) := by
  unfold onTransaction
  dsimp only
  split
  · exact ⟨fun _ => ⟨rfl, rfl, rfl⟩, fun h => Option.noConfusion h⟩
  · next hsig =>
    split
    · exact ⟨fun _ => ⟨rfl, rfl, rfl⟩, fun h => Option.noConfusion h⟩
    · next hpend =>
      split
      · exact ⟨fun _ => ⟨rfl, rfl, rfl⟩, fun h => Option.noConfusion h⟩
      · next hnonce =>
        rcases hval : (if tx.recipient = RECOVERY_CONTRACT then validateRecovery s tx
            else validatePayment s tx) with _ | e
        · have hr : (processCertificate fuel
              (setVotes (setAccount s tx.sender { getAccount s tx.sender with pending := true })
                tx.sender tx.nonce
                ((setAccount s tx.sender
                    { getAccount s tx.sender with pending := true }).voteStore tx.sender tx.nonce
                  ++ [⟨s.self, tx.sender, tx.nonce, some tx, true⟩]))
              tx.sender tx.nonce).err = none :=
            pc_err_none fuel _ tx.sender tx.nonce hself
          rw [hr]
          dsimp only
          refine ⟨fun hne => absurd rfl hne, fun _ => ⟨?_, ?_⟩⟩
          · rcases htx : tx.hasSig with _ | _
            · exact absurd htx hsig
            · rfl
          · have hri0 : ReplayInv tx.nonce (getAccount
                (setVotes (setAccount s tx.sender { getAccount s tx.sender with pending := true })
                  tx.sender tx.nonce
                  ((setAccount s tx.sender
                      { getAccount s tx.sender with pending := true }).voteStore tx.sender tx.nonce
                    ++ [⟨s.self, tx.sender, tx.nonce, some tx, true⟩])) tx.sender) := by
              have hn : tx.nonce = (getAccount s tx.sender).nonce := not_ne_iff.mp hnonce
              refine ⟨?_, Or.inl ?_⟩
              · simp [hn]
              · simp
            exact (pc_evolve fuel _ tx.sender tx.nonce).2.2.2.2.2.2.2 tx.nonce tx.sender hri0
        · exact ⟨fun _ => ⟨rfl, rfl, rfl⟩, fun h => Option.noConfusion h⟩

theorem onTransaction_replay (fuel2 : Nat) (s' : VState) (tx : Tx)
    (hsig : tx.hasSig = true)
    (hri : ReplayInv tx.nonce (getAccount s' tx.sender)) :
    ((onTransaction fuel2 s' tx).err = some .accountPending ∨
     (onTransaction fuel2 s' tx).err = some .nonceMismatch) ∧
    (onTransaction fuel2 s' tx).state = s' ∧
    (onTransaction fuel2 s' tx).vote = none ∧
    (onTransaction fuel2 s' tx).emitted = [] := by
  obtain ⟨hle, hor⟩ := hri
  unfold onTransaction
  dsimp only
  rw [if_neg (by rw [hsig]; exact fun h => Bool.noConfusion h)]
  rcases hpend : (getAccount s' tx.sender).pending with _ | _
  · have hlt : tx.nonce < (getAccount s' tx.sender).nonce := by
      rcases hor with h | h
      · rw [hpend] at h
        cases h
      · exact h
    rw [if_neg (by simp)]
    rw [if_pos (by omega : tx.nonce ≠ (getAccount s' tx.sender).nonce)]
    exact ⟨Or.inr rfl, rfl, rfl, rfl⟩
  · rw [if_pos rfl]
    exact ⟨Or.inl rfl, rfl, rfl, rfl⟩

/-- C8 (confirmed): with this validator a member of its own validator
set (so that its self votes verify), every failing onTransaction call —
bad signature, pending account, nonce mismatch, or payment/recovery
validation failure — returns the state unchanged with no self vote and
no broadcast; and replaying the same transaction after a successful call
fails with AccountPending or NonceMismatch and likewise changes
nothing. -/
theorem claim_C8 (fuel fuel2 : Nat) (s : VState) (tx : Tx)
    (hself : s.validatorSet.contains s.self = true) :
    ((onTransaction fuel s tx).err ≠ none →
      (onTransaction fuel s tx).state = s ∧ (onTransaction fuel s tx).vote = none ∧
      (onTransaction fuel s tx).emitted = []) ∧
    ((onTransaction fuel s tx).err = none →
      ((onTransaction fuel2 (onTransaction fuel s tx).state tx).err = some .accountPending ∨
       (onTransaction fuel2 (onTransaction fuel s tx).state tx).err = some .nonceMismatch) ∧
      (onTransaction fuel2 (onTransaction fuel s tx).state tx).state =
        (onTransaction fuel s tx).state ∧
      (onTransaction fuel2 (onTransaction fuel s tx).state tx).vote = none ∧
      (onTransaction fuel2 (onTransaction fuel s tx).state tx).emitted = []) := by
  have h1 := onTransaction_split fuel s tx hself
  refine ⟨h1.1, fun herr => ?_⟩
  obtain ⟨hsig, hri⟩ := h1.2 herr
  exact onTransaction_replay fuel2 _ tx hsig hri

/-- C8 witness: a funded genesis account accepts a payment of 100 and
the replay of the same transaction fails with AccountPending while
changing nothing. -/
theorem claim_C8_witness :
    (onTransaction 1 (initState 6 [1, 2, 3, 4, 5, 6] 5 3 [(10, 1000)])
      (Tx.mk 10 11 100 0 true none)).err = none ∧
    (((onTransaction 1 (onTransaction 1 (initState 6 [1, 2, 3, 4, 5, 6] 5 3 [(10, 1000)])
        (Tx.mk 10 11 100 0 true none)).state (Tx.mk 10 11 100 0 true none)).err =
          some .accountPending ∨
      (onTransaction 1 (onTransaction 1 (initState 6 [1, 2, 3, 4, 5, 6] 5 3 [(10, 1000)])
        (Tx.mk 10 11 100 0 true none)).state (Tx.mk 10 11 100 0 true none)).err =
          some .nonceMismatch) ∧
     (onTransaction 1 (onTransaction 1 (initState 6 [1, 2, 3, 4, 5, 6] 5 3 [(10, 1000)])
        (Tx.mk 10 11 100 0 true none)).state (Tx.mk 10 11 100 0 true none)).state =
       (onTransaction 1 (initState 6 [1, 2, 3, 4, 5, 6] 5 3 [(10, 1000)])
        (Tx.mk 10 11 100 0 true none)).state ∧
     (onTransaction 1 (onTransaction 1 (initState 6 [1, 2, 3, 4, 5, 6] 5 3 [(10, 1000)])
        (Tx.mk 10 11 100 0 true none)).state (Tx.mk 10 11 100 0 true none)).vote = none ∧
     (onTransaction 1 (onTransaction 1 (initState 6 [1, 2, 3, 4, 5, 6] 5 3 [(10, 1000)])
        (Tx.mk 10 11 100 0 true none)).state (Tx.mk 10 11 100 0 true none)).emitted = []) := by
  have h := claim_C8 1 1 (initState 6 [1, 2, 3, 4, 5, 6] 5 3 [(10, 1000)])
    (Tx.mk 10 11 100 0 true none) (by decide)
  exact ⟨rfl, h.2 rfl⟩

theorem classic_pc_store (s : VState) (a0 n0 : Nat) :
    (Classic.processCertificate s a0 n0).voteStore = s.voteStore ∧
    (Classic.processCertificate s a0 n0).self = s.self ∧
    (Classic.processCertificate s a0 n0).finalityQuorum = s.finalityQuorum := by
  unfold Classic.processCertificate
  dsimp only
  split
  · exact ⟨rfl, rfl, rfl⟩
  · split
    · exact ⟨rfl, rfl, rfl⟩
    · exact ⟨rfl, rfl, rfl⟩

theorem classic_pc_lock (s : VState) (a0 n0 a : Nat)
    (hng : ¬(a0 = a ∧ n0 = (getAccount s a).nonce ∧
      s.finalityQuorum ≤ (getMaxQuorumCert (s.voteStore a0 n0)).1)) :
    (getAccount (Classic.processCertificate s a0 n0) a).nonce = (getAccount s a).nonce ∧
    (getAccount (Classic.processCertificate s a0 n0) a).pending = (getAccount s a).pending := by
  unfold Classic.processCertificate
  dsimp only
  split
  · exact ⟨rfl, rfl⟩
  · split
    · next hcond =>
      have hne : a0 ≠ a := by
        intro he
        subst he
        exact hng ⟨rfl, hcond.1, hcond.2⟩
      constructor
      · simp only [getAccount_setAccount]
        rw [if_neg (fun h => hne h.symm)]
        exact (executeTransfer_fields s _ a).1
      · simp only [getAccount_setAccount]
        rw [if_neg (fun h => hne h.symm)]
        exact (executeTransfer_fields s _ a).2.1
    · exact ⟨rfl, rfl⟩

theorem classic_pc_lock_ne (S1 : VState) (a0 n0 a : Nat) (hne : a0 ≠ a) :
    (getAccount (Classic.processCertificate S1 a0 n0) a).nonce = (getAccount S1 a).nonce ∧
    (getAccount (Classic.processCertificate S1 a0 n0) a).pending = (getAccount S1 a).pending :=
  classic_pc_lock S1 a0 n0 a (fun hc => hne hc.1)

theorem classic_onVote_cases (s : VState) (v : Vote) :
    (Classic.onVote s v).1 = s ∨
    (Classic.onVote s v).1 = Classic.processCertificate
      (setVotes s v.account v.nonce (s.voteStore v.account v.nonce ++ [v])) v.account v.nonce := by
  unfold Classic.onVote
  dsimp only
  split
  · exact Or.inl rfl
  · split
    · exact Or.inl rfl
    · exact Or.inr rfl

theorem classic_onTransaction_cases (s : VState) (tx : Tx) :
    (Classic.onTransaction s tx).1 = s ∨
    ((getAccount s tx.sender).pending = false ∧
     (Classic.onTransaction s tx).1 = Classic.processCertificate
       (setVotes (setAccount s tx.sender { getAccount s tx.sender with pending := true })
         tx.sender tx.nonce
         ((setAccount s tx.sender { getAccount s tx.sender with pending := true }).voteStore
           tx.sender tx.nonce ++ [⟨s.self, tx.sender, tx.nonce, some tx, true⟩]))
       tx.sender tx.nonce) := by
  unfold Classic.onTransaction
  dsimp only
  split
  · exact Or.inl rfl
  · split
    · exact Or.inl rfl
    · next hp =>
      split
      · exact Or.inl rfl
      · split
        · exact Or.inl rfl
        · refine Or.inr ⟨?_, rfl⟩
          cases hpp : (getAccount s tx.sender).pending
          · rfl
          · exact absurd hpp hp

theorem classic_applyOp_store (s : VState) (op : Classic.Op) :
    (Classic.applyOp s op).self = s.self ∧
    (Classic.applyOp s op).finalityQuorum = s.finalityQuorum ∧
    (∀ x m, ∃ l, (Classic.applyOp s op).voteStore x m = s.voteStore x m ++ l ∧
      ∀ v ∈ l, op = Classic.Op.vote v ∨ (v.validator = s.self ∧ v.tx ≠ none)) := by
  rcases op with v | tx
  · rcases classic_onVote_cases s v with he | he
    · rw [show Classic.applyOp s (Classic.Op.vote v) = (Classic.onVote s v).1 from rfl, he]
      exact ⟨rfl, rfl, fun x m => ⟨[], by simp, by simp⟩⟩
    · rw [show Classic.applyOp s (Classic.Op.vote v) = (Classic.onVote s v).1 from rfl, he]
      obtain ⟨hst, hself, hfq⟩ := classic_pc_store
        (setVotes s v.account v.nonce (s.voteStore v.account v.nonce ++ [v])) v.account v.nonce
      refine ⟨by rw [hself]; simp, by rw [hfq]; simp, ?_⟩
      intro x m
      by_cases hx : x = v.account ∧ m = v.nonce
      · refine ⟨[v], ?_, ?_⟩
        · rw [hst]
          simp [hx.1, hx.2]
        · intro u hu
          rw [List.mem_singleton] at hu
          subst hu
          exact Or.inl rfl
      · refine ⟨[], ?_, by simp⟩
        rw [hst]
        simp [hx]
  · rcases classic_onTransaction_cases s tx with he | ⟨hpf, he⟩
    · rw [show Classic.applyOp s (Classic.Op.txn tx) = (Classic.onTransaction s tx).1 from rfl, he]
      exact ⟨rfl, rfl, fun x m => ⟨[], by simp, by simp⟩⟩
    · rw [show Classic.applyOp s (Classic.Op.txn tx) = (Classic.onTransaction s tx).1 from rfl, he]
      obtain ⟨hst, hself, hfq⟩ := classic_pc_store
        (setVotes (setAccount s tx.sender { getAccount s tx.sender with pending := true })
          tx.sender tx.nonce
          ((setAccount s tx.sender { getAccount s tx.sender with pending := true }).voteStore
            tx.sender tx.nonce ++ [⟨s.self, tx.sender, tx.nonce, some tx, true⟩]))
        tx.sender tx.nonce
      refine ⟨by rw [hself]; simp, by rw [hfq]; simp, ?_⟩
      intro x m
      by_cases hx : x = tx.sender ∧ m = tx.nonce
      · refine ⟨[⟨s.self, tx.sender, tx.nonce, some tx, true⟩], ?_, ?_⟩
        · rw [hst]
          simp [hx.1, hx.2]
        · intro u hu
          rw [List.mem_singleton] at hu
          subst hu
          exact Or.inr ⟨rfl, fun h => Option.noConfusion h⟩
      · refine ⟨[], ?_, by simp⟩
        rw [hst]
        simp [hx]

set_option maxHeartbeats 1000000 in
theorem classic_applyOp_lock (s : VState) (op : Classic.Op) (a k : Nat)
    (hk : (getAccount s a).nonce = k)
    (hpend : (getAccount s a).pending = true)
    (hq : (getMaxQuorumCert ((Classic.applyOp s op).voteStore a k)).1 < s.finalityQuorum) :
    (getAccount (Classic.applyOp s op) a).nonce = k ∧
    (getAccount (Classic.applyOp s op) a).pending = true := by
  rcases op with v | tx
  · rcases classic_onVote_cases s v with he | he
    · rw [show Classic.applyOp s (Classic.Op.vote v) = (Classic.onVote s v).1 from rfl, he]
      exact ⟨hk, hpend⟩
    · rw [show Classic.applyOp s (Classic.Op.vote v) = (Classic.onVote s v).1 from rfl, he] at hq ⊢
      have hst := (classic_pc_store
        (setVotes s v.account v.nonce (s.voteStore v.account v.nonce ++ [v])) v.account v.nonce).1
      rw [hst] at hq
      have hng : ¬(v.account = a ∧ v.nonce = (getAccount
          (setVotes s v.account v.nonce (s.voteStore v.account v.nonce ++ [v])) a).nonce ∧
          (setVotes s v.account v.nonce
            (s.voteStore v.account v.nonce ++ [v])).finalityQuorum ≤
          (getMaxQuorumCert ((setVotes s v.account v.nonce
            (s.voteStore v.account v.nonce ++ [v])).voteStore v.account v.nonce)).1) := by
        rintro ⟨h1, h2, h3⟩
        simp only [getAccount_setVotes] at h2
        rw [hk] at h2
        subst h1
        subst h2
        simp only [finalityQuorum_setVotes] at h3
        omega
      obtain ⟨hn1, hp1⟩ := classic_pc_lock
        (setVotes s v.account v.nonce (s.voteStore v.account v.nonce ++ [v])) v.account v.nonce a hng
      rw [hn1, hp1]
      simp only [getAccount_setVotes]
      exact ⟨hk, hpend⟩
  · rcases classic_onTransaction_cases s tx with he | ⟨hpf, he⟩
    · rw [show Classic.applyOp s (Classic.Op.txn tx) = (Classic.onTransaction s tx).1 from rfl, he]
      exact ⟨hk, hpend⟩
    · rw [show Classic.applyOp s (Classic.Op.txn tx) = (Classic.onTransaction s tx).1 from rfl, he]
      have hsne : tx.sender ≠ a := by
        intro h2
        rw [h2] at hpf
        rw [hpf] at hpend
        cases hpend
      have hacc : getAccount (setVotes (setAccount s tx.sender
          { getAccount s tx.sender with pending := true }) tx.sender tx.nonce
          ((setAccount s tx.sender { getAccount s tx.sender with pending := true }).voteStore
            tx.sender tx.nonce ++ [⟨s.self, tx.sender, tx.nonce, some tx, true⟩])) a =
          getAccount s a := by
        rw [getAccount_setVotes, getAccount_setAccount, if_neg (fun h => hsne h.symm)]
      rw [(classic_pc_lock_ne _ tx.sender tx.nonce a hsne).1,
        (classic_pc_lock_ne _ tx.sender tx.nonce a hsne).2, hacc]
      exact ⟨hk, hpend⟩

theorem classic_store_growth (ops : List Classic.Op) : ∀ s : VState,
    (Classic.applyOps s ops).self = s.self ∧
    (Classic.applyOps s ops).finalityQuorum = s.finalityQuorum ∧
    (∀ x m, ∃ l, (Classic.applyOps s ops).voteStore x m = s.voteStore x m ++ l ∧
      ∀ v ∈ l, Classic.Op.vote v ∈ ops ∨ (v.validator = s.self ∧ v.tx ≠ none)) := by
  induction ops with
  | nil =>
    intro s
    exact ⟨rfl, rfl, fun x m => ⟨[], (List.append_nil _).symm, by simp⟩⟩
  | cons op rest ih =>
    intro s
    have hstep := classic_applyOp_store s op
    have hrest := ih (Classic.applyOp s op)
    have he : Classic.applyOps s (op :: rest) = Classic.applyOps (Classic.applyOp s op) rest := rfl
    rw [he]
    refine ⟨hrest.1.trans hstep.1, hrest.2.1.trans hstep.2.1, ?_⟩
    intro x m
    obtain ⟨l1, e1, p1⟩ := hstep.2.2 x m
    obtain ⟨l2, e2, p2⟩ := hrest.2.2 x m
    refine ⟨l1 ++ l2, by rw [e2, e1, List.append_assoc], ?_⟩
    intro v hv
    rcases List.mem_append.mp hv with h | h
    · rcases p1 v h with h2 | h2
      · refine Or.inl ?_
        rw [← h2]
        exact List.mem_cons_self _ _
      · exact Or.inr h2
    · rcases p2 v h with h2 | h2
      · exact Or.inl (List.mem_cons_of_mem _ h2)
      · exact Or.inr ⟨h2.1.trans hstep.1, h2.2⟩

theorem classic_lock_aux (ops : List Classic.Op) : ∀ (s : VState) (a k : Nat),
    (getAccount s a).nonce = k → (getAccount s a).pending = true →
    (getMaxQuorumCert ((Classic.applyOps s ops).voteStore a k)).1 < s.finalityQuorum →
    (getAccount (Classic.applyOps s ops) a).nonce = k ∧
    (getAccount (Classic.applyOps s ops) a).pending = true := by
  induction ops with
  | nil =>
    intro s a k hk hp _
    exact ⟨hk, hp⟩
  | cons op rest ih =>
    intro s a k hk hp hq
    have he : Classic.applyOps s (op :: rest) = Classic.applyOps (Classic.applyOp s op) rest := rfl
    rw [he] at hq ⊢
    obtain ⟨l2, e2, _⟩ := (classic_store_growth rest (Classic.applyOp s op)).2.2 a k
    have hq1 : (getMaxQuorumCert ((Classic.applyOp s op).voteStore a k)).1 < s.finalityQuorum := by
      have hm := maxQuorum_append_le ((Classic.applyOp s op).voteStore a k) l2
      rw [← e2] at hm
      omega
    obtain ⟨hk1, hp1⟩ := classic_applyOp_lock s op a k hk hp hq1
    have hfq1 : (Classic.applyOp s op).finalityQuorum = s.finalityQuorum :=
      (classic_applyOp_store s op).2.1
    exact ih (Classic.applyOp s op) a k hk1 hp1 (by rw [hfq1]; exact hq)

/-- C10 (confirmed): in the classic 3f+1 core, an account pending at its
current nonce k stays pending at nonce k under every sequence of onVote
and onTransaction calls whose final vote store never gives any payload a
finality quorum at (a, k); moreover the classic core never casts a bot
vote: every vote the store gains across the run is either a delivered
ingress vote or this validator's own vote carrying a transaction
payload. -/
theorem claim_C10 (s : VState) (ops : List Classic.Op) (a k : Nat)
    (hk : (getAccount s a).nonce = k)
    (hpend : (getAccount s a).pending = true)
    (hq : (getMaxQuorumCert ((Classic.applyOps s ops).voteStore a k)).1 < s.finalityQuorum) :
    (getAccount (Classic.applyOps s ops) a).nonce = k ∧
    (getAccount (Classic.applyOps s ops) a).pending = true ∧
    (∀ x m, ∃ l, (Classic.applyOps s ops).voteStore x m = s.voteStore x m ++ l ∧
      ∀ v ∈ l, Classic.Op.vote v ∈ ops ∨ (v.validator = s.self ∧ v.tx ≠ none)) := by
  obtain ⟨h1, h2⟩ := classic_lock_aux ops s a k hk hpend hq
  exact ⟨h1, h2, (classic_store_growth ops s).2.2⟩

/-- C10 witness: the lock theorem applied at witC10State with one more
delivered vote: the maximum quorum stays at 2, below the finality quorum
3, and account 10 remains pending at nonce 0. -/
theorem claim_C10_witness :
    (getAccount (Classic.applyOps witC10State witC10Ops) 10).nonce = 0 ∧
    (getAccount (Classic.applyOps witC10State witC10Ops) 10).pending = true := by
  have h := claim_C10 witC10State witC10Ops 10 0 (by decide) (by decide) (by decide)
  exact ⟨h.1, h.2.1⟩

theorem txVoteCount_append (w : Nat) (l1 l2 : List Vote) :
    txVoteCount w (l1 ++ l2) = txVoteCount w l1 + txVoteCount w l2 := by
  simp [txVoteCount, List.filter_append]

theorem botVoteCount_append (w : Nat) (l1 l2 : List Vote) :
    botVoteCount w (l1 ++ l2) = botVoteCount w l1 + botVoteCount w l2 := by
  simp [botVoteCount, List.filter_append]

theorem txVoteCount_zero (w : Nat) (l : List Vote)
    (h : ∀ v ∈ l, ¬(v.validator = w ∧ v.tx ≠ none)) : txVoteCount w l = 0 := by
  unfold txVoteCount
  rw [List.length_eq_zero, List.filter_eq_nil_iff]
  intro v hv
  simpa using h v hv

theorem botVoteCount_zero (w : Nat) (l : List Vote)
    (h : ∀ v ∈ l, ¬(v.validator = w ∧ v.tx = none)) : botVoteCount w l = 0 := by
  unfold botVoteCount
  rw [List.length_eq_zero, List.filter_eq_nil_iff]
  intro v hv
  simpa using h v hv

theorem txVoteCount_singleton_le (w : Nat) (v : Vote) : txVoteCount w [v] ≤ 1 := by
  unfold txVoteCount
  rw [List.filter_singleton]
  cases hd : decide (v.validator = w ∧ v.tx ≠ none) <;> simp

theorem botVoteCount_singleton_le (w : Nat) (v : Vote) : botVoteCount w [v] ≤ 1 := by
  unfold botVoteCount
  rw [List.filter_singleton]
  cases hd : decide (v.validator = w ∧ v.tx = none) <;> simp

theorem hasSelfBotAt_false_count {s : VState} {a n : Nat}
    (h : hasSelfBotAt s a n = false) : botVoteCount s.self (s.voteStore a n) = 0 := by
  apply botVoteCount_zero
  intro v hv hc
  have : (s.voteStore a n).any (fun v => decide (v.validator = s.self ∧ v.tx = none)) = true :=
    List.any_eq_true.mpr ⟨v, hv, decide_eq_true hc⟩
  rw [hasSelfBotAt] at h
  rw [h] at this
  cases this

theorem voteDropped_some_iff (existing : List Vote) (v : Vote) (t : Tx) (hvt : v.tx = some t) :
    (voteDropped existing v = true ↔ ∃ w ∈ existing, w.validator = v.validator) := by
  unfold voteDropped
  rw [hvt]
  simp [List.any_eq_true]

theorem voteDropped_none_iff (existing : List Vote) (v : Vote) (hvt : v.tx = none) :
    (voteDropped existing v = true ↔
      ∃ w ∈ existing, w.validator = v.validator ∧ w.tx = none) := by
  unfold voteDropped
  rw [hvt]
  simp [List.any_eq_true]

theorem pc_botInv (fuel : Nat) : ∀ (s : VState) (a n w : Nat),
    w = s.self →
    (∀ x m, botVoteCount w (s.voteStore x m) ≤ 1) →
    ∀ x m, botVoteCount w ((processCertificate fuel s a n).state.voteStore x m) ≤ 1 := by
  induction fuel with
  | zero =>
    intro s a n w _ h x m
    exact h x m
  | succ f ih =>
    intro s a n w hw h
    simp only [processCertificate]
    rcases hp : phase1 s a n with ⟨s1, e⟩ | ⟨s2, bot⟩ | ⟨s1, bot⟩ | s1 | _
    · obtain ⟨hs1, _, _⟩ := phase1_err_inv hp
      subst hs1
      dsimp only
      intro x m
      exact h x m
    · obtain ⟨hcond, hbot, hs2⟩ := phase1_castBot_inv hp
      have hself2 : s2.self = s.self := by rw [hs2]; rfl
      have hstore2 : ∀ x m, botVoteCount w (s2.voteStore x m) ≤ 1 := by
        intro x m
        rw [hs2]
        by_cases hx : x = a ∧ m = n
        · rw [voteStore_setVotes, if_pos hx]
          rw [botVoteCount_append, hw, hasSelfBotAt_false_count hcond.2.2.2]
          simpa using botVoteCount_singleton_le s.self ⟨s.self, a, n, none, true⟩
        · rw [voteStore_setVotes, if_neg hx, voteStore_setAccount]
          exact h x m
      have hR := ih s2 a n w (hw.trans hself2.symm) hstore2
      rcases hr : (processCertificate f s2 a n).err with _ | e
      · dsimp only
        rw [hr]
        dsimp only
        have hff := finalityPhase_facts (processCertificate f s2 a n).state a n
          (getMaxQuorumCert (s.voteStore a n)).1 (getMaxQuorumCert (s.voteStore a n)).2
        have hevo_r := pc_evolve f s2 a n
        have hself_r : (processCertificate f s2 a n).state.self = s.self :=
          hevo_r.1.trans hself2
        have hself_fr : (finalityPhase (processCertificate f s2 a n).state a n
            (getMaxQuorumCert (s.voteStore a n)).1
            (getMaxQuorumCert (s.voteStore a n)).2).1.self = s.self := hff.1.1.trans hself_r
        have hstore_fr : ∀ x m, botVoteCount w ((finalityPhase (processCertificate f s2 a n).state
            a n (getMaxQuorumCert (s.voteStore a n)).1
            (getMaxQuorumCert (s.voteStore a n)).2).1.voteStore x m) ≤ 1 := by
          intro x m
          rw [hff.2.1]
          exact hR x m
        rcases hfr : (finalityPhase (processCertificate f s2 a n).state a n
            (getMaxQuorumCert (s.voteStore a n)).1 (getMaxQuorumCert (s.voteStore a n)).2).2
            with _ | _
        · rw [if_neg (by simp)]
          exact hstore_fr
        · rw [if_pos rfl]
          dsimp only
          exact ih (finalityPhase (processCertificate f s2 a n).state a n
              (getMaxQuorumCert (s.voteStore a n)).1
              (getMaxQuorumCert (s.voteStore a n)).2).1 a
            (getAccount (finalityPhase (processCertificate f s2 a n).state a n
              (getMaxQuorumCert (s.voteStore a n)).1
              (getMaxQuorumCert (s.voteStore a n)).2).1 a).nonce w
            (hw.trans hself_fr.symm) hstore_fr
      · dsimp only
        rw [hr]
        dsimp only
        exact hR
    · exact absurd hp (fun hh => phase1_botDropped_inv hh)
    · obtain ⟨hn, hpend, hq, hs1⟩ := phase1_advanced_inv hp
      dsimp only
      have hself1 : s1.self = s.self := by rw [hs1]; rfl
      have hstore1 : s1.voteStore = s.voteStore := by rw [hs1]; rfl
      have hff := finalityPhase_facts s1 a n
        (getMaxQuorumCert (s.voteStore a n)).1 (getMaxQuorumCert (s.voteStore a n)).2
      have hself_fr : (finalityPhase s1 a n (getMaxQuorumCert (s.voteStore a n)).1
          (getMaxQuorumCert (s.voteStore a n)).2).1.self = s.self := hff.1.1.trans hself1
      have hstore_fr : ∀ x m, botVoteCount w ((finalityPhase s1 a n
          (getMaxQuorumCert (s.voteStore a n)).1
          (getMaxQuorumCert (s.voteStore a n)).2).1.voteStore x m) ≤ 1 := by
        intro x m
        rw [hff.2.1, hstore1]
        exact h x m
      exact ih (finalityPhase s1 a n (getMaxQuorumCert (s.voteStore a n)).1
          (getMaxQuorumCert (s.voteStore a n)).2).1 a
        (getAccount (finalityPhase s1 a n (getMaxQuorumCert (s.voteStore a n)).1
          (getMaxQuorumCert (s.voteStore a n)).2).1 a).nonce w
        (hw.trans hself_fr.symm) hstore_fr
    · dsimp only
      have hff := finalityPhase_facts s a n
        (getMaxQuorumCert (s.voteStore a n)).1 (getMaxQuorumCert (s.voteStore a n)).2
      have hself_fr : (finalityPhase s a n (getMaxQuorumCert (s.voteStore a n)).1
          (getMaxQuorumCert (s.voteStore a n)).2).1.self = s.self := hff.1.1
      have hstore_fr : ∀ x m, botVoteCount w ((finalityPhase s a n
          (getMaxQuorumCert (s.voteStore a n)).1
          (getMaxQuorumCert (s.voteStore a n)).2).1.voteStore x m) ≤ 1 := by
        intro x m
        rw [hff.2.1]
        exact h x m
      rcases hfr : (finalityPhase s a n (getMaxQuorumCert (s.voteStore a n)).1
          (getMaxQuorumCert (s.voteStore a n)).2).2 with _ | _
      · rw [if_neg (by simp)]
        exact hstore_fr
      · rw [if_pos rfl]
        dsimp only
        exact ih (finalityPhase s a n (getMaxQuorumCert (s.voteStore a n)).1
            (getMaxQuorumCert (s.voteStore a n)).2).1 a
          (getAccount (finalityPhase s a n (getMaxQuorumCert (s.voteStore a n)).1
            (getMaxQuorumCert (s.voteStore a n)).2).1 a).nonce w
          (hw.trans hself_fr.symm) hstore_fr

theorem pc_storeInv (fuel : Nat) (s : VState) (a n : Nat) (h : StoreInv s) :
    StoreInv (processCertificate fuel s a n).state := by
  obtain ⟨hcnt, hrep⟩ := h
  have hevo := pc_evolve fuel s a n
  have hself : (processCertificate fuel s a n).state.self = s.self := hevo.1
  refine ⟨?_, ?_⟩
  · intro w x m
    obtain ⟨l, hl, hp⟩ := (pc_store fuel s a n).1 x m
    constructor
    · rw [hl, txVoteCount_append]
      have hz : txVoteCount w l = 0 := txVoteCount_zero w l (by
        intro v hv hc
        exact hc.2 (hp v hv).2.1)
      rw [hz]
      simpa using (hcnt w x m).1
    · by_cases hw : w = s.self
      · subst hw
        exact pc_botInv fuel s a n s.self rfl (fun x m => (hcnt s.self x m).2) x m
      · rw [hl, botVoteCount_append]
        have hz : botVoteCount w l = 0 := botVoteCount_zero w l (by
          intro v hv hc
          exact hw (hc.1.symm.trans (hp v hv).1))
        rw [hz]
        simpa using (hcnt w x m).2
  · intro x m hge
    obtain ⟨l, hl, hp⟩ := (pc_store fuel s a n).1 x m
    rw [hself, hl, txVoteCount_append] at hge
    have hz : txVoteCount s.self l = 0 := txVoteCount_zero _ l (by
      intro v hv hc
      exact hc.2 (hp v hv).2.1)
    rw [hz] at hge
    exact hevo.2.2.2.2.2.2.2 m x (hrep x m (by omega))

theorem onVote_storeInv (fuel : Nat) (s : VState) (v : Vote)
    (hv : v.validator ≠ s.self) (h : StoreInv s) :
    StoreInv (onVote fuel s v).state := by
  unfold onVote
  dsimp only
  split
  · exact h
  · split
    · exact h
    · next hdrop =>
      apply pc_storeInv
      obtain ⟨hcnt, hrep⟩ := h
      refine ⟨?_, ?_⟩
      · intro w x m
        by_cases hx : x = v.account ∧ m = v.nonce
        · rw [voteStore_setVotes, if_pos hx]
          constructor
          · rw [txVoteCount_append]
            rcases hvt : v.tx with _ | t
            · have h1 : txVoteCount w [v] = 0 := txVoteCount_zero _ _ (by
                intro u hu hc
                rw [List.mem_singleton] at hu
                subst hu
                exact hc.2 hvt)
              rw [h1]
              simpa using (hcnt w v.account v.nonce).1
            · by_cases hwv : w = v.validator
              · subst hwv
                have h0 : txVoteCount v.validator (s.voteStore v.account v.nonce) = 0 :=
                  txVoteCount_zero _ _ (by
                    intro u hu hc
                    exact hdrop ((voteDropped_some_iff _ v t hvt).mpr ⟨u, hu, hc.1⟩))
                rw [h0]
                simpa using txVoteCount_singleton_le v.validator v
              · have h1 : txVoteCount w [v] = 0 := txVoteCount_zero _ _ (by
                  intro u hu hc
                  rw [List.mem_singleton] at hu
                  subst hu
                  exact hwv hc.1.symm)
                rw [h1]
                simpa using (hcnt w v.account v.nonce).1
          · rw [botVoteCount_append]
            rcases hvt : v.tx with _ | t
            · by_cases hwv : w = v.validator
              · subst hwv
                have h0 : botVoteCount v.validator (s.voteStore v.account v.nonce) = 0 :=
                  botVoteCount_zero _ _ (by
                    intro u hu hc
                    exact hdrop ((voteDropped_none_iff _ v hvt).mpr ⟨u, hu, hc.1, hc.2⟩))
                rw [h0]
                simpa using botVoteCount_singleton_le v.validator v
              · have h1 : botVoteCount w [v] = 0 := botVoteCount_zero _ _ (by
                  intro u hu hc
                  rw [List.mem_singleton] at hu
                  subst hu
                  exact hwv hc.1.symm)
                rw [h1]
                simpa using (hcnt w v.account v.nonce).2
            · have h1 : botVoteCount w [v] = 0 := botVoteCount_zero _ _ (by
                intro u hu hc
                rw [List.mem_singleton] at hu
                subst hu
                rw [hvt] at hc
                exact Option.noConfusion hc.2)
              rw [h1]
              simpa using (hcnt w v.account v.nonce).2
        · rw [voteStore_setVotes, if_neg hx]
          exact hcnt w x m
      · intro x m hge
        by_cases hx : x = v.account ∧ m = v.nonce
        · rw [self_setVotes, voteStore_setVotes, if_pos hx, txVoteCount_append] at hge
          have h1 : txVoteCount s.self [v] = 0 := txVoteCount_zero _ _ (by
            intro u hu hc
            rw [List.mem_singleton] at hu
            subst hu
            exact hv hc.1)
          rw [h1] at hge
          rw [getAccount_setVotes, hx.1, hx.2]
          exact hrep v.account v.nonce (by omega)
        · rw [self_setVotes, voteStore_setVotes, if_neg hx] at hge
          rw [getAccount_setVotes]
          exact hrep x m hge

theorem onTransaction_storeInv (fuel : Nat) (s : VState) (tx : Tx) (h : StoreInv s) :
    StoreInv (onTransaction fuel s tx).state := by
  unfold onTransaction
  dsimp only
  split
  · exact h
  · split
    · exact h
    · next hpend =>
      split
      · exact h
      · next hnonce =>
        rcases hval : (if tx.recipient = RECOVERY_CONTRACT then validateRecovery s tx
            else validatePayment s tx) with _ | e
        · have hS2 : StoreInv (setVotes (setAccount s tx.sender
              { getAccount s tx.sender with pending := true }) tx.sender tx.nonce
              ((setAccount s tx.sender
                { getAccount s tx.sender with pending := true }).voteStore tx.sender tx.nonce
                ++ [⟨s.self, tx.sender, tx.nonce, some tx, true⟩])) := by
            obtain ⟨hcnt, hrep⟩ := h
            have hn : tx.nonce = (getAccount s tx.sender).nonce := not_ne_iff.mp hnonce
            have hpf : (getAccount s tx.sender).pending = false := by
              cases hpp : (getAccount s tx.sender).pending
              · rfl
              · exact absurd hpp hpend
            have hself0 : txVoteCount s.self (s.voteStore tx.sender tx.nonce) = 0 := by
              by_contra hne
              obtain ⟨hle, hor⟩ := hrep tx.sender tx.nonce (by omega)
              rcases hor with h1 | h1
              · rw [hpf] at h1
                cases h1
              · omega
            refine ⟨?_, ?_⟩
            · intro w x m
              by_cases hx : x = tx.sender ∧ m = tx.nonce
              · rw [voteStore_setVotes, if_pos hx, voteStore_setAccount]
                constructor
                · rw [txVoteCount_append]
                  by_cases hw : w = s.self
                  · subst hw
                    rw [hself0]
                    simpa using txVoteCount_singleton_le s.self
                      ⟨s.self, tx.sender, tx.nonce, some tx, true⟩
                  · have h1 : txVoteCount w [⟨s.self, tx.sender, tx.nonce, some tx, true⟩] = 0 :=
                      txVoteCount_zero _ _ (by
                        intro u hu hc
                        rw [List.mem_singleton] at hu
                        subst hu
                        exact hw hc.1.symm)
                    rw [h1]
                    simpa using (hcnt w tx.sender tx.nonce).1
                · rw [botVoteCount_append]
                  have h1 : botVoteCount w [⟨s.self, tx.sender, tx.nonce, some tx, true⟩] = 0 :=
                    botVoteCount_zero _ _ (by
                      intro u hu hc
                      rw [List.mem_singleton] at hu
                      subst hu
                      exact Option.noConfusion hc.2)
                  rw [h1]
                  simpa using (hcnt w tx.sender tx.nonce).2
              · rw [voteStore_setVotes, if_neg hx, voteStore_setAccount]
                exact hcnt w x m
            · intro x m hge
              rw [self_setVotes, self_setAccount] at hge
              by_cases hx : x = tx.sender ∧ m = tx.nonce
              · obtain ⟨hx1, hx2⟩ := hx
                subst hx1
                subst hx2
                rw [getAccount_setVotes, getAccount_setAccount, if_pos rfl]
                exact ⟨by dsimp only; omega, Or.inl rfl⟩
              · rw [voteStore_setVotes, if_neg hx, voteStore_setAccount] at hge
                have hri := hrep x m hge
                rw [getAccount_setVotes, getAccount_setAccount]
                by_cases hxa : x = tx.sender
                · rw [if_pos hxa]
                  subst hxa
                  exact ⟨hri.1, Or.inl rfl⟩
                · rw [if_neg hxa]
                  exact hri
          rcases hr : (processCertificate fuel (setVotes (setAccount s tx.sender
              { getAccount s tx.sender with pending := true }) tx.sender tx.nonce
              ((setAccount s tx.sender
                { getAccount s tx.sender with pending := true }).voteStore tx.sender tx.nonce
                ++ [⟨s.self, tx.sender, tx.nonce, some tx, true⟩])) tx.sender tx.nonce).err
              with _ | e
          · rw [hr]
            dsimp only
            exact pc_storeInv fuel _ tx.sender tx.nonce hS2
          · rw [hr]
            dsimp only
            exact pc_storeInv fuel _ tx.sender tx.nonce hS2
        · exact h

theorem applyOp_storeInv (s : VState) (op : Op)
    (hext : ∀ fuel v, op = Op.vote fuel v → v.validator ≠ s.self)
    (h : StoreInv s) : StoreInv (applyOp s op) := by
  rcases op with ⟨fuel, v⟩ | ⟨fuel, tx⟩
  · exact onVote_storeInv fuel s v (hext fuel v rfl) h
  · exact onTransaction_storeInv fuel s tx h

theorem applyOps_storeInv (ops : List Op) : ∀ s : VState,
    (∀ fuel v, Op.vote fuel v ∈ ops → v.validator ≠ s.self) →
    StoreInv s → StoreInv (applyOps s ops) := by
  induction ops with
  | nil =>
    intro s _ h
    exact h
  | cons op rest ih =>
    intro s hext h
    have he : applyOps s (op :: rest) = applyOps (applyOp s op) rest := rfl
    rw [he]
    have hself : (applyOp s op).self = s.self := (applyOp_evolve s op).1
    refine ih (applyOp s op) ?_ (applyOp_storeInv s op ?_ h)
    · intro fuel v hmem
      rw [hself]
      exact hext fuel v (List.mem_cons_of_mem _ hmem)
    · intro fuel v hop
      subst hop
      exact hext fuel v (List.mem_cons_self _ _)

theorem initState_storeInv (self : Nat) (vset : List Nat) (fq nq : Nat)
    (genesis : List (Nat × Int)) : StoreInv (initState self vset fq nq genesis) := by
  refine ⟨fun w x m => ⟨Nat.zero_le 1, Nat.zero_le 1⟩, fun x m hge => ?_⟩
  exact absurd hge (Nat.not_succ_le_zero 0)

/-- C7 (confirmed): single-vote store invariant.  In every state reached
from the initial state by ingress operations that never deliver a vote
forged under this validator's own identity, each (validator, account,
nonce) triple contributes at most one transaction-payload vote and at
most one bot vote to the store.  The deduplication rule is exact: an
incoming transaction-payload vote is dropped iff any vote from the same
validator is already stored at that slot, an incoming bot vote is
dropped iff a bot vote from the same validator is already stored, a
verified dropped vote leaves the state unchanged and raises nothing, and
a verified non-dropped vote is appended to its slot. -/
theorem claim_C7 (self : Nat) (vset : List Nat) (fq nq : Nat) (genesis : List (Nat × Int))
    (ops : List Op)
    (hext : ∀ fuel v, Op.vote fuel v ∈ ops → v.validator ≠ self) :
    (∀ w x m,
      txVoteCount w ((applyOps (initState self vset fq nq genesis) ops).voteStore x m) ≤ 1 ∧
      botVoteCount w ((applyOps (initState self vset fq nq genesis) ops).voteStore x m) ≤ 1) ∧
    (∀ (existing : List Vote) (v : Vote) (t : Tx), v.tx = some t →
      (voteDropped existing v = true ↔ ∃ w ∈ existing, w.validator = v.validator)) ∧
    (∀ (existing : List Vote) (v : Vote), v.tx = none →
      (voteDropped existing v = true ↔
        ∃ w ∈ existing, w.validator = v.validator ∧ w.tx = none)) ∧
    (∀ (fuel : Nat) (s : VState) (v : Vote),
      verifyVote v s.validatorSet = true →
      voteDropped (s.voteStore v.account v.nonce) v = true →
      onVote fuel s v = ⟨s, [], none⟩) ∧
    (∀ (fuel : Nat) (s : VState) (v : Vote),
      verifyVote v s.validatorSet = true →
      voteDropped (s.voteStore v.account v.nonce) v = false →
      v ∈ (onVote fuel s v).state.voteStore v.account v.nonce) := by
  refine ⟨?_, voteDropped_some_iff, voteDropped_none_iff, ?_, ?_⟩
  · exact (applyOps_storeInv ops (initState self vset fq nq genesis) hext
      (initState_storeInv self vset fq nq genesis)).1
  · intro fuel s v hver hdrop
    unfold onVote
    dsimp only
    rw [if_neg (by rw [hver]; exact fun h => Bool.noConfusion h), if_pos hdrop]
  · intro fuel s v hver hdrop
    unfold onVote
    dsimp only
    rw [if_neg (by rw [hver]; exact fun h => Bool.noConfusion h),
      if_neg (by rw [hdrop]; exact fun h => Bool.noConfusion h)]
    obtain ⟨l, hl, _⟩ := (pc_store fuel (setVotes s v.account v.nonce
      (s.voteStore v.account v.nonce ++ [v])) v.account v.nonce).1 v.account v.nonce
    rw [hl]
    apply List.mem_append_left
    rw [voteStore_setVotes, if_pos ⟨rfl, rfl⟩]
    exact List.mem_append_right _ (List.mem_singleton_self v)

/-- C7 witness: after the initial state receives one payment vote from
validator 1, the slot of account 10 at nonce 0 holds at most one
transaction-payload vote and at most one bot vote from validator 1. -/
theorem claim_C7_witness :
    txVoteCount 1 ((applyOps (initState 6 [1, 2, 3, 4, 5, 6] 5 3 [])
      [Op.vote 2 ⟨1, 10, 0, some (Tx.mk 10 11 1 0 true none), true⟩]).voteStore 10 0) ≤ 1 ∧
    botVoteCount 1 ((applyOps (initState 6 [1, 2, 3, 4, 5, 6] 5 3 [])
      [Op.vote 2 ⟨1, 10, 0, some (Tx.mk 10 11 1 0 true none), true⟩]).voteStore 10 0) ≤ 1 := by
  have h := claim_C7 6 [1, 2, 3, 4, 5, 6] 5 3 []
    [Op.vote 2 ⟨1, 10, 0, some (Tx.mk 10 11 1 0 true none), true⟩]
    (by
      intro fuel v hmem
      rw [List.mem_singleton] at hmem
      injection hmem with h1 h2
      subst h2
      decide)
  exact ⟨(h.1 1 10 0).1, (h.1 1 10 0).2⟩

end FastPay
